import Mathlib

/-!
Verification development for the CpltSet support layer
(`gecode/cpltset/support.hpp`): the range-value cache `ValCache`, the
bound-consistency check `testConsistency`, the variable-order heuristic
`variableorder`, and the cardinality diagram builders `extcardeq`,
`extcardlqgq` and `extcardcheck`.

Decision diagrams are embedded semantically: a `bdd` is the boolean
function it denotes, as a function of the truth assignments to the table
variables of the two views `x` and `y`.  The manager primitives
(`bdd_true`, `bdd_false`, `manager.ite`, conjunction, the literal
constructors `element`/`elementNeg`) are the corresponding pointwise
operations on boolean functions, which is exactly the function each
ROBDD handle denotes.  A view's literal at table slot `j` reads the
assignment at index `j`; the call sites pass slots `k - initialLubMin`
exactly as the source does.

Loops are embedded as structural recursions on an explicit fuel that the
wrapper computes from the loop bounds at entry (`(n - i).toNat` for an
ascending `for` loop, `(c + 1).toNat` for a loop driven by the
descending cursor); with that entry value the recursion performs exactly
the iterations of the source loop, for all inputs.
-/

namespace CpltSet

/-- A decision-diagram handle, embedded as the boolean function it
denotes: the first argument assigns view `x`'s table variables (by
slot), the second view `y`'s. -/
def bdd : Type := (Int → Bool) → (Int → Bool) → Bool

/-- `bdd_true()`: the universally accepting diagram. -/
def bdd_true : bdd := fun _ _ => true

/-- `bdd_false()`: the unconditionally false diagram. -/
def bdd_false : bdd := fun _ _ => false

/-- `manager.ite(c, t, f)`: if-then-else combination of diagrams. -/
def manager_ite (c t f : bdd) : bdd := fun sx sy =>
  if c sx sy then t sx sy else f sx sy

/-- `a & b` / `a &= b`: conjunction of diagrams. -/
def bdd_and (a b : bdd) : bdd := fun sx sy => a sx sy && b sx sy

/-- `x.element(j)`: the positive literal for view `x`'s table slot `j`. -/
def xelement (j : Int) : bdd := fun sx _ => sx j

/-- `y.element(j)`: the positive literal for view `y`'s table slot `j`. -/
def yelement (j : Int) : bdd := fun _ sy => sy j

/-- `x.elementNeg(j)`: the negative literal for view `x`'s slot `j`. -/
def xelementNeg (j : Int) : bdd := fun sx _ => !(sx j)

/-- `y.elementNeg(j)`: the negative literal for view `y`'s slot `j`. -/
def yelementNeg (j : Int) : bdd := fun _ sy => !(sy j)

/-- The layer array `bdd* layer = re.alloc<bdd>(n)`, embedded as a total
map from (integer) index to diagram.  Freshly allocated entries are
default handles that the source never reads before writing; the model
gives them `bdd_false`. -/
def updLayer (layer : Int → bdd) (i : Int) (b : bdd) : Int → bdd :=
  fun j => if j = i then b else layer j

/-- `ValCache`: the cached value sequence.  `r` is the stored array,
`c` the cursor, `n` the number of cached ranges and `s` the element
count, exactly the four fields of the class. -/
structure ValCache where
  r : List Int
  c : Int
  n : Int
  s : Int

namespace ValCache

/-- `operator()`: the iterator is at a range iff `-1 < c && c < n`. -/
def valid (v : ValCache) : Bool := (-1 < v.c) && (v.c < v.n)

/-- `operator++`: advance the cursor. -/
def adv (v : ValCache) : ValCache := { v with c := v.c + 1 }

/-- `operator--`: retreat the cursor. -/
def ret (v : ValCache) : ValCache := { v with c := v.c - 1 }

/-- `reset()`: cursor to position 0. -/
def reset (v : ValCache) : ValCache := { v with c := 0 }

/-- `last()`: cursor to position `n - 1`. -/
def last (v : ValCache) : ValCache := { v with c := v.n - 1 }

/-- `finish()`: cursor to the sentinel `-1`. -/
def finish (v : ValCache) : ValCache := { v with c := -1 }

/-- `min()` (also `max()` and `val()`): the value `r[c]` at the cursor.
Reading at an invalid cursor is undefined in the source; the model
returns a default there. -/
def min (v : ValCache) : Int := v.r.getD v.c.toNat 0

/-- `size()`: the element count `s`. -/
def size (v : ValCache) : Int := v.s

/-- `index()`: the raw cursor. -/
def index (v : ValCache) : Int := v.c

/-- `index(i)`: set the raw cursor. -/
def setIndex (v : ValCache) (i : Int) : ValCache := { v with c := i }

/-- The `while (i()) { d[j] = i.val(); ++j; ++i; s++; }` drain of
`init`, accumulating the drained values and their count.  The source
iterator is embedded as the list of values it yields in order. -/
def initLoop : List Int → List Int × Nat
  | [] => ([], 0)
  | v :: rest =>
    let (d, j) := initLoop rest
    (v :: d, j + 1)

/-- `init(i)`: drain the source iterator into the array, record the
counts, and put the cursor at 0. -/
def init (vals : List Int) : ValCache :=
  let (d, j) := initLoop vals
  { r := d, c := 0, n := (j : Int), s := (j : Int) }

end ValCache

/-! ## testConsistency -/

/-- An `IntSet` as `testConsistency` consumes it: a normalized list of
closed ranges; `size` is the total width, `min`/`max` the first lower
and last upper bound. -/
structure IntSet where
  ranges : List (Int × Int)

namespace IntSet

/-- `size()`: number of elements over all ranges. -/
def size (s : IntSet) : Nat :=
  (s.ranges.map fun p => (p.2 + 1 - p.1).toNat).sum

/-- `min()`: lower bound of the first range (defined for nonempty sets). -/
def smin (s : IntSet) : Int := ((s.ranges.head?).getD (0, 0)).1

/-- `max()`: upper bound of the last range (defined for nonempty sets). -/
def smax (s : IntSet) : Int := ((s.ranges.getLast?).getD (0, 0)).2

/-- Normalization invariant of Gecode's `IntSet` storage: ranges are
nonempty, sorted and separated. -/
def wf (s : IntSet) : Prop :=
  (∀ p ∈ s.ranges, p.1 ≤ p.2) ∧
    s.ranges.Chain' (fun p q => p.2 + 1 < q.1)

end IntSet

/-- Modelled from the spec: the global value limits `Set::Limits::min`
and `Set::Limits::max` of the host solver, which are outside the given
sources; the spec leaves their numeric values abstract, so the model
fixes representative values. -/
def limitsMin : Int := -1073741822

/-- Modelled from the spec: the global upper value limit. -/
def limitsMax : Int := 1073741822

/-- Modelled from the spec: the global cardinality limit
`Set::Limits::card`. -/
def limitsCard : Int := 1073741823

/-- The outcome of `testConsistency`: normal return or one of the three
exception kinds it throws. -/
inductive CheckResult where
  | ok
  | failedDomain
  | outOfRangeDomain
  | outOfRangeCardinality
deriving DecidableEq, Repr

/-- The domain part of `testConsistency` (the checks on `glb` and
`lub`): `some e` if one of them throws `e`, `none` if control reaches
the cardinality checks. -/
def testConsistencyDomains (glb lub : IntSet) : Option CheckResult :=
  let glbNonZero := glb.size > 0
  let lubNonZero := lub.size > 0
  if glbNonZero then
    let glbMin := glb.smin
    let glbMax := glb.smax
    if ¬lubNonZero ∨ glbMin > glbMax then some .failedDomain
    else if glbMin < limitsMin ∨ glbMax > limitsMax then
      some .outOfRangeDomain
    else
      let lubMin := lub.smin
      let lubMax := lub.smax
      if (glbMin < lubMin ∨ glbMin > lubMax) ∨
          (glbMax > lubMax ∨ glbMax < lubMin) then some .failedDomain
      else if lubNonZero then
        if lubMin < limitsMin ∨ lubMax > limitsMax then
          some .outOfRangeDomain
        else if lubMin > lubMax then some .failedDomain
        else none
      else none
  else if lubNonZero then
    let lubMin := lub.smin
    let lubMax := lub.smax
    if lubMin < limitsMin ∨ lubMax > limitsMax then some .outOfRangeDomain
    else if lubMin > lubMax then some .failedDomain
    else none
  else none

/-- The cardinality part of `testConsistency` (the checks on `cardMin`
and `cardMax`, reached when no domain check throws). -/
def testConsistencyCard (cardMin cardMax : Int) : CheckResult :=
  if cardMax < 0 then .failedDomain
  else if cardMax > limitsCard then .outOfRangeCardinality
  else if cardMin > cardMax ∨ cardMin < 0 then .failedDomain
  else .ok

/-- `testConsistency(glb, lub, cardMin, cardMax, location)`: the checks
in source order; the first throw wins. -/
def testConsistency (glb lub : IntSet) (cardMin cardMax : Int) :
    CheckResult :=
  match testConsistencyDomains glb lub with
  | some e => e
  | none => testConsistencyCard cardMin cardMax

/-! ## The cardinality diagram builders

Each C++ loop becomes a structural recursion on a fuel that the wrapper
computes from the loop bounds at entry, making the recursion perform
exactly the source loop's iterations. -/

/-- First loop of `extcardeq`: `for (i = 1; i <= c; i++)` filling
`layer[i]` with the pair literal at the current cursor value (the loop
does not move the cursor). -/
def extcardeqP1 (xmin ymin : Int) : Nat → Nat → (Int → bdd) → ValCache →
    (Int → bdd)
  | 0, _, layer, _ => layer
  | fuel + 1, i, layer, inter =>
    let k := inter.min
    let layer := updLayer layer (i : Int)
      (bdd_and (xelement (k - xmin)) (yelement (k - ymin)))
    extcardeqP1 xmin ymin fuel (i + 1) layer inter

/-- Second loop of `extcardeq`: connect the lowest layer,
`layer[i] = ite(layer[i], layer[i-1], false)` for `i = 1 .. n-1`. -/
def extcardeqConnect : Nat → Int → (Int → bdd) → (Int → bdd)
  | 0, _, layer => layer
  | fuel + 1, i, layer =>
    let layer := updLayer layer i (manager_ite (layer i) (layer (i - 1)) bdd_false)
    extcardeqConnect fuel (i + 1) layer

/-- Inner loop of `extcardeq`'s final phase: `for (i = 0; i < n; i++)`
updating `layer[i]` with the literal at the cursor, retreating the
cursor each step and breaking when it becomes invalid. -/
def extcardeqInner (xmin ymin : Int) : Nat → Int → (Int → bdd) → ValCache →
    (Int → bdd) × ValCache
  | 0, _, layer, inter => (layer, inter)
  | fuel + 1, i, layer, inter =>
    let col := inter.min
    let t := if i = 0 then bdd_false else layer (i - 1)
    let both := manager_ite (yelement (col - ymin)) t (layer i)
    let layer' := updLayer layer i (manager_ite (xelement (col - xmin)) both (layer i))
    let inter := inter.ret
    if !inter.valid then (layer', inter)
    else extcardeqInner xmin ymin fuel (i + 1) layer' inter

/-- Outer loop of `extcardeq`'s final phase: `for (; inter(); --inter)`
saving the cursor, running the inner loop, breaking when the cursor is
exhausted and otherwise restoring the saved position. -/
def extcardeqOuter (xmin ymin : Int) (n : Int) : Nat → (Int → bdd) → ValCache →
    (Int → bdd) × ValCache
  | 0, layer, inter => (layer, inter)
  | fuel + 1, layer, inter =>
    if inter.valid then
      let pos := inter.index
      let (layer, inter) := extcardeqInner xmin ymin n.toNat 0 layer inter
      if !inter.valid then (layer, inter)
      else extcardeqOuter xmin ymin n fuel layer ((inter.setIndex pos).ret)
    else (layer, inter)

/-- `extcardeq(home, inter, x, y, c, n, r)`: build the diagram for
`|x cap y| = c`.  `xmin`/`ymin` are `x.initialLubMin()` and
`y.initialLubMin()`; the views' `element` literals are read through the
assignment arguments of `bdd`.  Returns the result diagram together
with the cache as the call leaves it. -/
def extcardeq (xmin ymin : Int) (inter : ValCache) (c : Nat) (n : Int) (_r : Int) :
    bdd × ValCache :=
  let layer : Int → bdd := fun _ => bdd_false
  let layer := updLayer layer 0 bdd_true
  let inter := inter.last
  let layer := extcardeqP1 xmin ymin c 1 layer inter
  let layer := extcardeqConnect ((n : Int) - 1).toNat 1 layer
  let inter := inter.last
  let (layer, inter) := extcardeqOuter xmin ymin n (inter.c + 1).toNat layer inter
  (layer (n - 1), inter)

/-- Seed loop of `extcardlqgq`:
`for (i = n - cl; i < n; i++, --inter)` building the lowest-layer
window on top of `layer[n - cl - 1] = true`. -/
def lqgqSeedLoop (xmin ymin : Int) : Nat → Int → (Int → bdd) → ValCache →
    (Int → bdd) × ValCache
  | 0, _, layer, inter => (layer, inter)
  | fuel + 1, i, layer, inter =>
    let k := inter.min
    let both := manager_ite (yelement (k - ymin)) (layer (i - 1)) bdd_false
    let layer := updLayer layer i (manager_ite (xelement (k - xmin)) both bdd_false)
    lqgqSeedLoop xmin ymin fuel (i + 1) layer inter.ret

/-- Inner loop of `extcardlqgq`'s second phase
(`for (i = n - cl; i < n; i++)`): update the seeded window with the
literal at the cursor; after each retreat, if the cursor has passed
below `r + 1 - cr` the cache is finished and the loop breaks. -/
def lqgqBInner (xmin ymin : Int) (cr : Nat) (r : Int) : Nat → Int →
    (Int → bdd) → ValCache → (Int → bdd) × ValCache
  | 0, _, layer, inter => (layer, inter)
  | fuel + 1, i, layer, inter =>
    let col := inter.min
    let t := layer (i - 1)
    let both := manager_ite (yelement (col - ymin)) t (layer i)
    let layer' := updLayer layer i (manager_ite (xelement (col - xmin)) both (layer i))
    let inter := inter.ret
    if inter.index + 1 < r + 1 - (cr : Int) then (layer', inter.finish)
    else lqgqBInner xmin ymin cr r fuel (i + 1) layer' inter

/-- Outer loop of `extcardlqgq`'s second phase: save the cursor, run the
inner loop, break when the cursor is invalid, otherwise restore and
retreat. -/
def lqgqBOuter (xmin ymin : Int) (cl cr : Nat) (n r : Int) : Nat →
    (Int → bdd) → ValCache → (Int → bdd) × ValCache
  | 0, layer, inter => (layer, inter)
  | fuel + 1, layer, inter =>
    if inter.valid then
      let pos := inter.index
      let (layer, inter) := lqgqBInner xmin ymin cr r cl (n - (cl : Int)) layer inter
      if !inter.valid then (layer, inter)
      else lqgqBOuter xmin ymin cl cr n r fuel layer ((inter.setIndex pos).ret)
    else (layer, inter)

/-- The `cr == r` single-layer pass of `extcardlqgq`: one sweep over all
`n` layers carrying the mutable `t`/`f` handles of the source
(`zerot = false`, `zerof = true` at `i == 0`; `f` is retargeted to the
old `layer[i]` once `i` enters the seeded window). -/
def lqgqSingleLoop (xmin ymin : Int) (cl : Nat) (n : Int) : Nat → Int →
    bdd → bdd → (Int → bdd) → ValCache → (Int → bdd) × ValCache
  | 0, _, _, _, layer, inter => (layer, inter)
  | fuel + 1, i, _t, f, layer, inter =>
    let col := inter.min
    let t := if i = 0 then bdd_false else layer (i - 1)
    let f := if i = 0 then bdd_true
      else if i > n - (cl : Int) - 1 then layer i else f
    let both := manager_ite (yelement (col - ymin)) t f
    let layer' := updLayer layer i (manager_ite (xelement (col - xmin)) both f)
    let inter := inter.ret
    if !inter.valid then (layer', inter)
    else lqgqSingleLoop xmin ymin cl n fuel (i + 1) t f layer' inter

/-- The connection-layer pass of `extcardlqgq`: like the single-layer
pass but `f` keeps its entry value at `i == 0` and is retargeted to the
old `layer[i]` only when additionally `cl > 0`. -/
def lqgqConnLoop (xmin ymin : Int) (cl : Nat) (n : Int) : Nat → Int →
    bdd → bdd → (Int → bdd) → ValCache → (Int → bdd) × ValCache
  | 0, _, _, _, layer, inter => (layer, inter)
  | fuel + 1, i, _t, f, layer, inter =>
    let col := inter.min
    let t := if i = 0 then bdd_false else layer (i - 1)
    let f := if i ≠ 0 ∧ i > n - (cl : Int) - 1 ∧ 0 < cl then layer i else f
    let both := manager_ite (yelement (col - ymin)) t f
    let layer' := updLayer layer i (manager_ite (xelement (col - xmin)) both f)
    let inter := inter.ret
    if !inter.valid then (layer', inter)
    else lqgqConnLoop xmin ymin cl n fuel (i + 1) t f layer' inter

/-- Inner loop of `extcardlqgq`'s final phase (the remaining layers for
`cr`): `layer[i] = ite(y.element & x.element, t, layer[i])`. -/
def lqgqUpInner (xmin ymin : Int) : Nat → Int → (Int → bdd) → ValCache →
    (Int → bdd) × ValCache
  | 0, _, layer, inter => (layer, inter)
  | fuel + 1, i, layer, inter =>
    let col := inter.min
    let t := if i = 0 then bdd_false else layer (i - 1)
    let both := bdd_and (yelement (col - ymin)) (xelement (col - xmin))
    let layer' := updLayer layer i (manager_ite both t (layer i))
    let inter := inter.ret
    if !inter.valid then (layer', inter)
    else lqgqUpInner xmin ymin fuel (i + 1) layer' inter

/-- Outer loop of `extcardlqgq`'s final phase. -/
def lqgqUpOuter (xmin ymin : Int) (n : Int) : Nat → (Int → bdd) → ValCache →
    (Int → bdd) × ValCache
  | 0, layer, inter => (layer, inter)
  | fuel + 1, layer, inter =>
    if inter.valid then
      let pos := inter.index
      let (layer, inter) := lqgqUpInner xmin ymin n.toNat 0 layer inter
      if !inter.valid then (layer, inter)
      else lqgqUpOuter xmin ymin n fuel layer ((inter.setIndex pos).ret)
    else (layer, inter)

/-- The seed and window phases of `extcardlqgq` (everything before the
`cr == r + 1` branch): allocate the layers, seed
`layer[n - cl - 1] = true`, build the lowest layer from the last `cl`
cached values, and run the shifted window passes. -/
def lqgqAB (xmin ymin : Int) (inter : ValCache) (cl cr : Nat) (n r : Int) :
    (Int → bdd) × ValCache :=
  let layer : Int → bdd := fun _ => bdd_false
  let layer := updLayer layer (n - (cl : Int) - 1) bdd_true
  let inter := inter.last
  let (layer, inter) := lqgqSeedLoop xmin ymin cl (n - (cl : Int)) layer inter
  let inter := inter.last.ret
  lqgqBOuter xmin ymin cl cr n r (inter.c + 1).toNat layer inter

/-- The `cr == r` single-layer construction of `extcardlqgq`, from the
state the seed/window phases leave. -/
def lqgqSingle (xmin ymin : Int) (cl : Nat) (n : Int) (layer : Int → bdd)
    (inter : ValCache) : (Int → bdd) × ValCache :=
  let inter := inter.last
  lqgqSingleLoop xmin ymin cl n n.toNat 0 bdd_true bdd_true layer inter

/-- The generic two-phase tail of `extcardlqgq` (connection layer, then
the remaining layers for `cr`), from the state the seed/window phases
leave. -/
def lqgqGeneric (xmin ymin : Int) (cl : Nat) (n : Int) (layer : Int → bdd)
    (inter : ValCache) : (Int → bdd) × ValCache :=
  let inter := inter.last
  let (layer, inter) := lqgqConnLoop xmin ymin cl n n.toNat 0 bdd_true bdd_true layer inter
  let inter := inter.last.ret
  lqgqUpOuter xmin ymin n (inter.c + 1).toNat layer inter

/-- Which of the three tails of `extcardlqgq` produces the returned
diagram, mirroring the source's `cr == r + 1` / `cr == r` tests. -/
inductive LqgqBranch where
  | seedTop
  | singlePass
  | generic
deriving DecidableEq, Repr

/-- The branch selection of `extcardlqgq`. -/
def lqgqBranchSel (cr : Nat) (r : Int) : LqgqBranch :=
  if (cr : Int) = r + 1 then .seedTop
  else if (cr : Int) = r then .singlePass
  else .generic

/-- `extcardlqgq(home, inter, x, y, cl, cr, n, r)`: build the diagram
for `cl <= |x cap y| <= cr`.  Returns the diagram together with the
cache as the call leaves it. -/
def extcardlqgq (xmin ymin : Int) (inter : ValCache) (cl cr : Nat) (n r : Int) :
    bdd × ValCache :=
  let (layer, inter) := lqgqAB xmin ymin inter cl cr n r
  if (cr : Int) = r + 1 then (layer (n - 1), inter)
  else if (cr : Int) = r then
    let (layer, inter) := lqgqSingle xmin ymin cl n layer inter
    (layer (n - 1), inter)
  else
    let (layer, inter) := lqgqGeneric xmin ymin cl n layer inter
    (layer (n - 1), inter)

/-- The `cr == 0` loop of `extcardcheck`: conjoin, over the cached
intersection, both negated literals. -/
def extcardcheckEmptyLoop (xmin ymin : Int) : Nat → bdd → ValCache → bdd
  | 0, acc, _ => acc
  | fuel + 1, acc, inter =>
    if inter.valid then
      let v := inter.min
      extcardcheckEmptyLoop xmin ymin fuel
        (bdd_and acc (bdd_and (xelementNeg (v - xmin)) (yelementNeg (v - ymin))))
        inter.adv
    else acc

/-- The `cl == cr == isize` loop of `extcardcheck`: conjoin, over the
cached intersection, both positive literals. -/
def extcardcheckFullLoop (xmin ymin : Int) : Nat → bdd → ValCache → bdd
  | 0, acc, _ => acc
  | fuel + 1, acc, inter =>
    if inter.valid then
      let v := inter.min
      extcardcheckFullLoop xmin ymin fuel
        (bdd_and acc (bdd_and (xelement (v - xmin)) (yelement (v - ymin))))
        inter.adv
    else acc

/-- The body of `extcardcheck` from the point where the intersection has
been cached (`unsigned int isize = inter.size();` onwards). -/
def extcardcheckCache (xmin ymin : Int) (inter : ValCache) (cl cr : Nat) : bdd :=
  let isize : Nat := inter.size.toNat
  let cr := if cr > isize then isize else cr
  let r : Int := (isize : Int) - 1
  let n : Int := (cr : Int) + 1
  if cl > isize ∨ cl > cr then bdd_false
  else if cr = 0 then
    extcardcheckEmptyLoop xmin ymin (inter.n - inter.c).toNat bdd_true inter
  else if cl = cr then
    if cr = isize then
      extcardcheckFullLoop xmin ymin (inter.n - inter.c).toNat bdd_true inter
    else (extcardeq xmin ymin inter cr n r).1
  else if cr = isize ∧ cl = 0 then bdd_true
  else (extcardlqgq xmin ymin inter cl cr n r).1

/-- `extcardcheck(home, x, y, cl, cr)`: build the diagram for
`cl <= |x cap y| <= cr`.  The computation of the intersection of the two
views' upper bounds (the external range-iterator algebra) is embedded as
its result `vals`, the increasing list of common domain values, which
`extcardcheck` wraps in a fresh `ValCache`. -/
def extcardcheck (vals : List Int) (xmin ymin : Int) (cl cr : Nat) : bdd :=
  extcardcheckCache xmin ymin (ValCache.init vals) cl cr

/-! ## Acceptance semantics -/

/-- The number of intersection values, from position `j` of the cached
list on, that the assignment puts in both `x` and `y`. -/
def cntFrom (vals : List Int) (xmin ymin : Int) (j : Nat)
    (sx sy : Int → Bool) : Nat :=
  ((vals.drop j).filter fun v => sx (v - xmin) && sy (v - ymin)).length

/-- The number of intersection values the assignment puts in both views:
the quantity the cardinality window constrains. -/
def countBoth (vals : List Int) (xmin ymin : Int) (sx sy : Int → Bool) : Nat :=
  cntFrom vals xmin ymin 0 sx sy

/-! ## variableorder -/

/-- The order array `int* hls_order`, embedded as a total map. -/
def updOrder (ord : Nat → Int) (i : Nat) (v : Int) : Nat → Int :=
  fun j => if j = i then v else ord j

/-- The identity-writing loops of `variableorder`
(`hls_order[i] = i` for a range of positions). -/
def voIdLoop : Nat → Nat → (Nat → Int) → Nat → Int
  | 0, _, ord => ord
  | fuel + 1, i, ord => voIdLoop fuel (i + 1) (updOrder ord i (i : Int))

/-- One column `f` of `variableorder`'s interleaving loop: visit every
view in collection order and append slot `offset + f` when it lies
inside the view's width. -/
def voColLoop (f : Nat) : List (Nat × Nat) → Nat → (Nat → Int) →
    Nat × (Nat → Int)
  | [], cpos, ord => (cpos, ord)
  | (xo, xw) :: rest, cpos, ord =>
    let cur := xo + f
    if cur < xo + xw then
      voColLoop f rest (cpos + 1) (updOrder ord cpos (cur : Int))
    else voColLoop f rest cpos ord

/-- All columns `f = 0 .. max_width - 1` of the interleaving loop. -/
def voAllCols : Nat → Nat → List (Nat × Nat) → Nat → (Nat → Int) →
    Nat × (Nat → Int)
  | 0, _, _, cpos, ord => (cpos, ord)
  | fuel + 1, f, xs, cpos, ord =>
    let (cpos', ord') := voColLoop f xs cpos ord
    voAllCols fuel (f + 1) xs cpos' ord'

/-- `variableorder(home, x)` over one collection of views, each view
embedded as its `(offset, tableWidth)` pair; `varInTab` is
`manager.allocated()`.  Returns the installed order as the list
`hls_order[0 .. varInTab - 1]`. -/
def variableorder (x : List (Nat × Nat)) (varInTab : Nat) : List Int :=
  let x0 := x.headD (0, 0)
  let minOffset := x.foldl (fun a p => Nat.min a p.1) x0.1
  let maxWidth := x.foldl (fun a p => Nat.max a p.2) x0.2
  let ord : Nat → Int := fun _ => 0
  let ord := voIdLoop minOffset 0 ord
  let (cpos, ord) := voAllCols maxWidth 0 x minOffset ord
  let ord := voIdLoop (varInTab - cpos) cpos ord
  (List.range varInTab).map ord

/-! ## Cache traversal -/

/-- Full forward traversal: read `val()` and advance while the validity
test holds. -/
def collectFwdGo : Nat → ValCache → List Int
  | 0, _ => []
  | fuel + 1, v => if v.valid then v.min :: collectFwdGo fuel v.adv else []

/-- Forward traversal from the current cursor. -/
def collectFwd (v : ValCache) : List Int := collectFwdGo (v.n - v.c).toNat v

/-- Full backward traversal: read `val()` and retreat while the validity
test holds. -/
def collectBwdGo : Nat → ValCache → List Int
  | 0, _ => []
  | fuel + 1, v => if v.valid then v.min :: collectBwdGo fuel v.ret else []

/-- Backward traversal from the current cursor. -/
def collectBwd (v : ValCache) : List Int := collectBwdGo (v.c + 1).toNat v

/-- A cursor operation of the `ValCache` interface. -/
inductive CursorOp where
  | adv
  | ret
  | reset
  | last
  | finish
  | seek (i : Int)

/-- Apply one cursor operation. -/
def applyOp : CursorOp → ValCache → ValCache
  | .adv, v => v.adv
  | .ret, v => v.ret
  | .reset, v => v.reset
  | .last, v => v.last
  | .finish, v => v.finish
  | .seek i, v => v.setIndex i

/-- Apply a sequence of cursor operations. -/
def applyOps : List CursorOp → ValCache → ValCache
  | [], v => v
  | op :: ops, v => applyOps ops (applyOp op v)

/-! ## Basic lemmas about the cache -/

theorem initLoop_eq (vals : List Int) :
    ValCache.initLoop vals = (vals, vals.length) := by
  induction vals with
  | nil => rfl
  | cons v rest ih => simp [ValCache.initLoop, ih]

theorem init_eq (vals : List Int) :
    ValCache.init vals =
      ⟨vals, 0, (vals.length : Int), (vals.length : Int)⟩ := by
  simp [ValCache.init, initLoop_eq]

theorem drop_cons_getD (r : List Int) (c : Nat) (h : c < r.length) :
    r.drop c = r.getD c 0 :: r.drop (c + 1) := by
  induction r generalizing c with
  | nil => simp at h
  | cons a rest ih =>
    cases c with
    | zero => simp [List.getD]
    | succ c =>
      simp only [List.drop_succ_cons, List.getD_cons_succ]
      exact ih c (by simpa using h)

/-! ## Claim C1 -/

/-- C1: the claim that `extcardcheck` accepts exactly the assignments
whose shared-element count lies in `[cl, cr]` fails on the code.  For
the window `[0, 0]` over the one-value intersection `{5}`, the
assignment putting 5 in `x` but not in `y` has shared count 0, yet the
built diagram rejects it (the `cr == 0` branch conjoins both negated
literals, forcing both views empty).  For the window `[2, 2]` over
`{0, 1, 2}`, the assignment putting only 2 in both views has shared
count 1, yet the diagram built by `extcardeq` accepts it. -/
theorem extcardcheck_c1_failing :
    (countBoth [5] 5 5 (fun _ => true) (fun _ => false) = 0 ∧
      extcardcheck [5] 5 5 0 0 (fun _ => true) (fun _ => false) = false) ∧
    (countBoth [0, 1, 2] 0 0 (fun j => decide (j = 2)) (fun j => decide (j = 2)) = 1 ∧
      extcardcheck [0, 1, 2] 0 0 2 2 (fun j => decide (j = 2))
        (fun j => decide (j = 2)) = true) := by
  refine ⟨⟨?_, ?_⟩, ⟨?_, ?_⟩⟩ <;> rfl

/-! ## Claim C2 -/

/-- C2: `extcardcheck` first clips `cr` to the intersection size
`isize` whenever `cr > isize` (the result is the same as calling with
the clipped window), and if afterwards `cl > isize` or `cl > cr` it
returns the unconditionally-false diagram; no error is signalled (the
function just returns a diagram). -/
theorem extcardcheck_clips_and_rejects (vals : List Int) (xmin ymin : Int)
    (cl cr : Nat) :
    extcardcheck vals xmin ymin cl cr =
      extcardcheck vals xmin ymin cl
        (if cr > vals.length then vals.length else cr) ∧
    (cl > vals.length ∨ cl > (if cr > vals.length then vals.length else cr) →
      extcardcheck vals xmin ymin cl cr = bdd_false) := by
  constructor
  · simp only [extcardcheck, extcardcheckCache, init_eq, ValCache.size,
      Int.toNat_ofNat]
    have hclip : (if (if cr > vals.length then vals.length else cr) >
        vals.length then vals.length
        else (if cr > vals.length then vals.length else cr)) =
        (if cr > vals.length then vals.length else cr) := by
      split_ifs <;> omega
    rw [hclip]
  · intro h
    simp only [extcardcheck, extcardcheckCache, init_eq, ValCache.size,
      Int.toNat_ofNat]
    rw [if_pos h]

/-- Witness for C2 at a concrete inconsistent window: for the
three-value intersection `{1, 2, 3}` and window `[5, 3]` the diagram is
unconditionally false. -/
theorem extcardcheck_clips_and_rejects_witness :
    extcardcheck [1, 2, 3] 0 0 5 3 = bdd_false :=
  (extcardcheck_clips_and_rejects [1, 2, 3] 0 0 5 3).2 (by decide)

/-! ## Claim C3 -/

/-- C3: the claimed interleaved order `[0, 3, 1, 4, 2]` for two views
with offsets 0 and 3, width 2 each, among 5 slots does not match the
code: the final loop writes `hls_order[i] = i` for the remaining
positions, so position 4 receives slot 4 (slot 2 is dropped and slot 4
duplicated), producing `[0, 3, 1, 4, 4]` — not a permutation, against
the function's stated intent of installing a variable order. -/
theorem variableorder_c3_failing :
    variableorder [(0, 2), (3, 2)] 5 = [0, 3, 1, 4, 4] ∧
    variableorder [(0, 2), (3, 2)] 5 ≠ [0, 3, 1, 4, 2] := by
  constructor <;> decide

/-! ## Claim C9 -/

/-- C9: building a cardinality diagram is deterministic: two runs of
`extcardcheck` with the same window over element-wise equal cached
intersections denote the same boolean function.  The construction is a
pure function of the cached values, so equal inputs give semantically
equal diagrams. -/
theorem extcardcheck_deterministic (vals1 vals2 : List Int)
    (xmin ymin : Int) (cl cr : Nat) (h : vals1 = vals2) :
    ∀ sx sy, extcardcheck vals1 xmin ymin cl cr sx sy =
      extcardcheck vals2 xmin ymin cl cr sx sy := by
  subst h; intro sx sy; rfl

/-- Witness for C9 at a concrete input. -/
theorem extcardcheck_deterministic_witness :
    extcardcheck [1, 2] 0 0 1 2 (fun _ => true) (fun _ => false) =
      extcardcheck [1, 2] 0 0 1 2 (fun _ => true) (fun _ => false) :=
  extcardcheck_deterministic [1, 2] [1, 2] 0 0 1 2 rfl
    (fun _ => true) (fun _ => false)

/-! ## Claim C8 -/

theorem take_succ_getD (r : List Int) (c : Nat) (h : c < r.length) :
    r.take (c + 1) = r.take c ++ [r.getD c 0] := by
  induction r generalizing c with
  | nil => simp at h
  | cons a rest ih =>
    cases c with
    | zero => simp [List.getD]
    | succ c =>
      simp only [List.take_succ_cons, List.getD_cons_succ]
      rw [ih c (by simpa using h)]
      simp

theorem collectFwdGo_spec (r : List Int) (s : Int) :
    ∀ fuel (c : Nat), fuel = r.length - c →
      collectFwdGo fuel ⟨r, (c : Int), (r.length : Int), s⟩ = r.drop c := by
  intro fuel
  induction fuel with
  | zero =>
    intro c hc
    have : r.length ≤ c := by omega
    simp [collectFwdGo, List.drop_eq_nil_iff, this]
  | succ fuel ih =>
    intro c hc
    have hlt : c < r.length := by omega
    have hv : ValCache.valid ⟨r, (c : Int), (r.length : Int), s⟩ = true := by
      simp only [ValCache.valid, Bool.and_eq_true, decide_eq_true_eq]
      omega
    simp only [collectFwdGo, hv, if_pos]
    have hadv : (ValCache.adv ⟨r, (c : Int), (r.length : Int), s⟩) =
        ⟨r, ((c + 1 : Nat) : Int), (r.length : Int), s⟩ := by
      simp [ValCache.adv]
    rw [hadv, ih (c + 1) (by omega)]
    have hm : ValCache.min ⟨r, (c : Int), (r.length : Int), s⟩ = r.getD c 0 := by
      simp [ValCache.min]
    rw [hm, ← drop_cons_getD r c hlt]

theorem collectBwdGo_spec (r : List Int) (s : Int) :
    ∀ fuel (c : Nat), fuel = c + 1 → c < r.length →
      collectBwdGo fuel ⟨r, (c : Int), (r.length : Int), s⟩ =
        (r.take (c + 1)).reverse := by
  intro fuel
  induction fuel with
  | zero => intro c hc; exact absurd hc (by omega)
  | succ fuel ih =>
    intro c hfc h
    have hv : ValCache.valid ⟨r, (c : Int), (r.length : Int), s⟩ = true := by
      simp only [ValCache.valid, Bool.and_eq_true, decide_eq_true_eq]
      omega
    simp only [collectBwdGo, hv, if_pos]
    have hm : ValCache.min ⟨r, (c : Int), (r.length : Int), s⟩ =
        r.getD c 0 := by
      simp [ValCache.min]
    cases c with
    | zero =>
      have hf0 : fuel = 0 := by omega
      subst hf0
      simp only [collectBwdGo]
      rw [hm, take_succ_getD r 0 h]
      simp
    | succ c =>
      have hret : (ValCache.ret ⟨r, ((c + 1 : Nat) : Int), (r.length : Int), s⟩) =
          ⟨r, (c : Int), (r.length : Int), s⟩ := by
        simp [ValCache.ret]
      rw [hret, ih c (by omega) (by omega), hm, take_succ_getD r (c + 1) h]
      simp

theorem applyOp_fields (op : CursorOp) (v : ValCache) :
    (applyOp op v).r = v.r ∧ (applyOp op v).n = v.n ∧
      (applyOp op v).s = v.s := by
  cases op <;> simp [applyOp, ValCache.adv, ValCache.ret, ValCache.reset,
    ValCache.last, ValCache.finish, ValCache.setIndex]

theorem applyOps_fields (ops : List CursorOp) (v : ValCache) :
    (applyOps ops v).r = v.r ∧ (applyOps ops v).n = v.n ∧
      (applyOps ops v).s = v.s := by
  induction ops generalizing v with
  | nil => exact ⟨rfl, rfl, rfl⟩
  | cons op ops ih =>
    have h1 := applyOp_fields op v
    have h2 := ih (applyOp op v)
    simp only [applyOps]
    exact ⟨h2.1.trans h1.1, h2.2.1.trans h1.2.1, h2.2.2.trans h1.2.2⟩

/-- C8: after `init` from a finite source of `k` distinct increasing
values, `size()` equals `k` under any sequence of cursor operations;
`reset()` followed by full forward traversal yields exactly the cached
values in order; `last()` followed by full backward traversal yields
them reversed; and the validity test `operator()` is true iff
`-1 < c < n`. -/
theorem valcache_c8 (vals : List Int) (hinc : vals.Chain' (· < ·)) :
    (∀ ops : List CursorOp,
      (applyOps ops (ValCache.init vals)).size = (vals.length : Int)) ∧
    collectFwd ((ValCache.init vals).reset) = vals ∧
    collectBwd ((ValCache.init vals).last) = vals.reverse ∧
    (∀ v : ValCache, v.valid = true ↔ -1 < v.c ∧ v.c < v.n) := by
  refine ⟨?_, ?_, ?_, ?_⟩
  · intro ops
    have h := (applyOps_fields ops (ValCache.init vals)).2.2
    rw [ValCache.size, h, init_eq]
  · rw [init_eq]
    show collectFwd ⟨vals, 0, (vals.length : Int), (vals.length : Int)⟩ = vals
    rw [collectFwd]
    have h0 : ((0 : Nat) : Int) = (0 : Int) := rfl
    have := collectFwdGo_spec vals (vals.length : Int) vals.length 0 (by omega)
    simpa using this
  · rw [init_eq]
    show collectBwd ⟨vals, (vals.length : Int) - 1, (vals.length : Int),
      (vals.length : Int)⟩ = vals.reverse
    cases vals with
    | nil => rfl
    | cons a rest =>
      rw [collectBwd]
      have hc : ((a :: rest).length : Int) - 1 = ((rest.length : Nat) : Int) := by
        simp
      rw [hc]
      have hfuel : (((rest.length : Nat) : Int) + 1).toNat = rest.length + 1 := by
        omega
      rw [hfuel]
      rw [collectBwdGo_spec (a :: rest) ((a :: rest).length : Int)
        (rest.length + 1) rest.length rfl (by simp)]
      rw [List.take_of_length_le (by simp)]
  · intro v
    simp [ValCache.valid]

/-- Witness for C8 at a concrete increasing value sequence. -/
theorem valcache_c8_witness :
    collectFwd ((ValCache.init [3, 5, 9]).reset) = [3, 5, 9] ∧
    collectBwd ((ValCache.init [3, 5, 9]).last) = [9, 5, 3] :=
  ⟨(valcache_c8 [3, 5, 9] (by norm_num [List.chain'_cons])).2.1,
    (valcache_c8 [3, 5, 9] (by norm_num [List.chain'_cons])).2.2.1⟩

/-! ## Counting lemmas and per-assignment step lemmas -/

/-- "at least `d` of the cached positions from `j` on hold a shared
value": the layer invariant of the seed/window phases. -/
def geB (vals : List Int) (xmin ymin : Int) (d j : Nat)
    (sx sy : Int → Bool) : Bool :=
  decide (d ≤ cntFrom vals xmin ymin j sx sy)

theorem cntFrom_of_ge (vals : List Int) (xmin ymin : Int)
    (sx sy : Int → Bool) (j : Nat) (h : vals.length ≤ j) :
    cntFrom vals xmin ymin j sx sy = 0 := by
  simp [cntFrom, List.drop_eq_nil_iff.mpr h]

theorem cntFrom_le (vals : List Int) (xmin ymin : Int)
    (sx sy : Int → Bool) (j : Nat) :
    cntFrom vals xmin ymin j sx sy ≤ vals.length - j := by
  calc cntFrom vals xmin ymin j sx sy
      ≤ (vals.drop j).length := List.length_filter_le _ _
    _ = vals.length - j := List.length_drop j vals

theorem cntFrom_succ (vals : List Int) (xmin ymin : Int)
    (sx sy : Int → Bool) (j : Nat) (h : j < vals.length) :
    cntFrom vals xmin ymin j sx sy =
      (if sx (vals.getD j 0 - xmin) && sy (vals.getD j 0 - ymin) then 1
        else 0) + cntFrom vals xmin ymin (j + 1) sx sy := by
  rw [cntFrom, drop_cons_getD vals j h, List.filter_cons]
  split <;> simp [cntFrom, Nat.add_comm]

theorem pair_ite_val (xmin ymin : Int) (sx sy : Int → Bool) (col : Int)
    (t f : bdd) :
    manager_ite (xelement (col - xmin))
        (manager_ite (yelement (col - ymin)) t f) f sx sy =
      if sx (col - xmin) && sy (col - ymin) then t sx sy else f sx sy := by
  cases hx : sx (col - xmin) <;> cases hy : sy (col - ymin) <;>
    simp [manager_ite, xelement, yelement, hx, hy]

theorem pair_ite_val2 (xmin ymin : Int) (sx sy : Int → Bool) (col : Int)
    (t f : bdd) :
    manager_ite (bdd_and (yelement (col - ymin)) (xelement (col - xmin)))
        t f sx sy =
      if sx (col - xmin) && sy (col - ymin) then t sx sy else f sx sy := by
  cases hx : sx (col - xmin) <;> cases hy : sy (col - ymin) <;>
    simp [manager_ite, bdd_and, xelement, yelement, hx, hy]

theorem geB_step (vals : List Int) (xmin ymin : Int) (sx sy : Int → Bool)
    (d j : Nat) (hj : j < vals.length) :
    geB vals xmin ymin (d + 1) j sx sy =
      (if sx (vals.getD j 0 - xmin) && sy (vals.getD j 0 - ymin) then
        geB vals xmin ymin d (j + 1) sx sy
      else geB vals xmin ymin (d + 1) (j + 1) sx sy) := by
  simp only [geB, cntFrom_succ vals xmin ymin sx sy j hj]
  split <;> · simp only [decide_eq_decide]; omega

theorem geB_eq_false (vals : List Int) (xmin ymin : Int)
    (sx sy : Int → Bool) (d j : Nat) (h : vals.length - j < d) :
    geB vals xmin ymin d j sx sy = false := by
  have := cntFrom_le vals xmin ymin sx sy j
  simp only [geB, decide_eq_false_iff_not]
  omega

theorem geB_zero (vals : List Int) (xmin ymin : Int) (sx sy : Int → Bool)
    (j : Nat) : geB vals xmin ymin 0 j sx sy = true := by
  simp [geB]

/-! ## The seed phase invariant -/

theorem updLayer_same (layer : Int → bdd) (i : Int) (b : bdd) :
    updLayer layer i b i = b := by simp [updLayer]

theorem updLayer_other (layer : Int → bdd) (i j : Int) (b : bdd)
    (h : j ≠ i) : updLayer layer i b j = layer j := by simp [updLayer, h]

theorem lqgqSeedLoop_spec (vals : List Int) (xmin ymin : Int)
    (sx sy : Int → Bool) (cl : Nat) :
    ∀ fuel (t : Nat) (layer : Int → bdd),
      fuel + t = cl → cl < vals.length →
      layer ((vals.length : Int) - cl - 1 + t) sx sy =
        geB vals xmin ymin t (vals.length - t) sx sy →
      ∀ post, post = lqgqSeedLoop xmin ymin fuel
          ((vals.length : Int) - cl + t) layer
          ⟨vals, (vals.length : Int) - 1 - t, (vals.length : Int),
            (vals.length : Int)⟩ →
        (∀ d : Nat, t ≤ d → d ≤ cl →
          post.1 ((vals.length : Int) - cl - 1 + d) sx sy =
            geB vals xmin ymin d (vals.length - d) sx sy) ∧
        (∀ i : Int, i < (vals.length : Int) - cl + t → post.1 i = layer i) ∧
        post.2 = ⟨vals, (vals.length : Int) - 1 - cl, (vals.length : Int),
          (vals.length : Int)⟩ := by
  intro fuel
  induction fuel with
  | zero =>
    intro t layer hft hcl hentry post hpost
    have ht : t = cl := by omega
    subst ht
    subst hpost
    refine ⟨?_, fun i _ => rfl, rfl⟩
    intro d hd1 hd2
    have hd : d = t := by omega
    subst hd
    exact hentry
  | succ fuel ih =>
    intro t layer hft hcl hentry post hpost
    have htcl : t < cl := by omega
    have hjlt : vals.length - 1 - t < vals.length := by omega
    simp only [lqgqSeedLoop] at hpost
    have hmin : ValCache.min ⟨vals, (vals.length : Int) - 1 - t,
        (vals.length : Int), (vals.length : Int)⟩ =
        vals.getD (vals.length - 1 - t) 0 := by
      simp only [ValCache.min]
      congr 1
      omega
    have hret : ValCache.ret ⟨vals, (vals.length : Int) - 1 - t,
        (vals.length : Int), (vals.length : Int)⟩ =
        ⟨vals, (vals.length : Int) - 1 - ((t + 1 : Nat) : Int),
          (vals.length : Int), (vals.length : Int)⟩ := by
      simp only [ValCache.ret]
      congr 1
      push_cast
      ring
    rw [hmin, hret] at hpost
    set layer' := updLayer layer ((vals.length : Int) - cl + t)
      (manager_ite
        (xelement (vals.getD (vals.length - 1 - t) 0 - xmin))
        (manager_ite (yelement (vals.getD (vals.length - 1 - t) 0 - ymin))
          (layer ((vals.length : Int) - cl + t - 1)) bdd_false)
        bdd_false) with hlayer'
    have hidx : (vals.length : Int) - cl + t - 1 =
        (vals.length : Int) - cl - 1 + t := by ring
    have hentry' : layer' ((vals.length : Int) - cl - 1 +
        ((t + 1 : Nat) : Int)) sx sy =
        geB vals xmin ymin (t + 1) (vals.length - (t + 1)) sx sy := by
      have heq : (vals.length : Int) - cl - 1 + ((t + 1 : Nat) : Int) =
          (vals.length : Int) - cl + t := by push_cast; ring
      rw [heq, hlayer', updLayer_same, pair_ite_val, hidx, hentry]
      have hj2 : vals.length - (t + 1) = vals.length - 1 - t := by omega
      rw [hj2, geB_step vals xmin ymin sx sy t (vals.length - 1 - t) hjlt]
      have hj1 : vals.length - 1 - t + 1 = vals.length - t := by omega
      rw [hj1]
      split
      · rfl
      · rw [geB_eq_false vals xmin ymin sx sy (t + 1) (vals.length - t)
          (by omega)]
        rfl
    have harg : (vals.length : Int) - cl + t + 1 =
        (vals.length : Int) - cl + ((t + 1 : Nat) : Int) := by
      push_cast; ring
    rw [harg] at hpost
    obtain ⟨hmain, hframe, hcache⟩ := ih (t + 1) layer' (by omega) hcl
      hentry' post hpost
    refine ⟨?_, ?_, hcache⟩
    · intro d hd1 hd2
      rcases Nat.eq_or_lt_of_le hd1 with hd | hd
      · subst hd
        have hlt : (vals.length : Int) - cl - 1 + t <
            (vals.length : Int) - cl + ((t + 1 : Nat) : Int) := by
          push_cast; omega
        rw [hframe _ hlt, hlayer', updLayer_other _ _ _ _ (by omega)]
        exact hentry
      · exact hmain d hd hd2
    · intro i hi
      have hlt : i < (vals.length : Int) - cl + ((t + 1 : Nat) : Int) := by
        push_cast; omega
      rw [hframe i hlt, hlayer', updLayer_other _ _ _ _ (by omega)]

/-! ## The window phase invariant (for `cr = isize - 1`) -/

theorem lqgqBInner_spec (vals : List Int) (xmin ymin : Int)
    (sx sy : Int → Bool) (cl cr : Nat) (r : Int)
    (hm : vals.length = cr + 1) (hr : r = (cr : Int)) (hclcr : cl ≤ cr) :
    ∀ fuel (t q : Nat) (layer : Int → bdd),
      fuel + t = cl → t ≤ q → cl ≤ q + 1 → q + 1 ≤ cr →
      (∀ d : Nat, d ≤ t →
        layer ((vals.length : Int) - cl - 1 + d) sx sy =
          geB vals xmin ymin d (q + 1 - d) sx sy) →
      (∀ d : Nat, t < d → d ≤ cl →
        layer ((vals.length : Int) - cl - 1 + d) sx sy =
          geB vals xmin ymin d (q + 2 - d) sx sy) →
      ∀ post, post = lqgqBInner xmin ymin cr r fuel
          ((vals.length : Int) - cl + t) layer
          ⟨vals, (q : Int) - t, (vals.length : Int), (vals.length : Int)⟩ →
        (∀ d : Nat, d ≤ cl →
          post.1 ((vals.length : Int) - cl - 1 + d) sx sy =
            geB vals xmin ymin d (q + 1 - d) sx sy) ∧
        (∀ i : Int, i < (vals.length : Int) - cl + t → post.1 i = layer i) ∧
        post.2 = ⟨vals, (q : Int) - cl, (vals.length : Int),
          (vals.length : Int)⟩ := by
  intro fuel
  induction fuel with
  | zero =>
    intro t q layer hft ht hq1 hq2 hlow hhigh post hpost
    have ht' : t = cl := by omega
    subst ht'
    subst hpost
    exact ⟨fun d hd => hlow d hd, fun i _ => rfl, rfl⟩
  | succ fuel ih =>
    intro t q layer hft ht hq1 hq2 hlow hhigh post hpost
    have htcl : t < cl := by omega
    have hjlt : q - t < vals.length := by omega
    simp only [lqgqBInner, ValCache.index] at hpost
    have hmin : ValCache.min ⟨vals, (q : Int) - t, (vals.length : Int),
        (vals.length : Int)⟩ = vals.getD (q - t) 0 := by
      simp only [ValCache.min]
      congr 1
      omega
    have hret : ValCache.ret ⟨vals, (q : Int) - t, (vals.length : Int),
        (vals.length : Int)⟩ =
        ⟨vals, (q : Int) - t - 1, (vals.length : Int), (vals.length : Int)⟩ :=
      rfl
    rw [hmin, hret] at hpost
    set layer' := updLayer layer ((vals.length : Int) - cl + t)
      (manager_ite (xelement (vals.getD (q - t) 0 - xmin))
        (manager_ite (yelement (vals.getD (q - t) 0 - ymin))
          (layer ((vals.length : Int) - cl + t - 1))
          (layer ((vals.length : Int) - cl + t)))
        (layer ((vals.length : Int) - cl + t))) with hlayer'
    have hidx : (vals.length : Int) - cl + t - 1 =
        (vals.length : Int) - cl - 1 + t := by ring
    have hidx2 : (vals.length : Int) - cl + t =
        (vals.length : Int) - cl - 1 + ((t + 1 : Nat) : Int) := by
      push_cast; ring
    have hnew : layer' ((vals.length : Int) - cl + t) sx sy =
        geB vals xmin ymin (t + 1) (q - t) sx sy := by
      have helse := hhigh (t + 1) (by omega) (by omega)
      rw [← hidx2] at helse
      rw [hlayer', updLayer_same, pair_ite_val, hidx, hlow t le_rfl, helse]
      have haux1 : q + 1 - t = q - t + 1 := by omega
      have haux2 : q + 2 - (t + 1) = q - t + 1 := by omega
      rw [haux1, haux2, geB_step vals xmin ymin sx sy t (q - t) hjlt]
    by_cases hbr : (q : Int) - t - 1 + 1 < r + 1 - (cr : Int)
    · have hqt : q = t := by omega
      rw [if_pos hbr] at hpost
      subst hpost
      dsimp only
      have hcl' : cl = t + 1 := by omega
      refine ⟨?_, ?_, ?_⟩
      · intro d hd
        rcases Nat.lt_or_ge d (t + 1) with hdt | hdt
        · have : layer' ((vals.length : Int) - cl - 1 + d) =
              layer ((vals.length : Int) - cl - 1 + d) := by
            rw [hlayer']
            exact updLayer_other _ _ _ _ (by omega)
          rw [this]
          exact hlow d (by omega)
        · have hd' : d = t + 1 := by omega
          subst hd'
          rw [← hidx2, hnew]
          congr 1
          omega
      · intro i hi
        rw [hlayer']
        exact updLayer_other _ _ _ _ (by omega)
      · simp only [ValCache.finish]
        congr 1
        omega
    · rw [if_neg hbr] at hpost
      have harg1 : (vals.length : Int) - cl + t + 1 =
          (vals.length : Int) - cl + ((t + 1 : Nat) : Int) := by
        push_cast; ring
      have harg2 : (q : Int) - t - 1 = (q : Int) - ((t + 1 : Nat) : Int) := by
        push_cast; ring
      rw [harg1, harg2] at hpost
      have hlow' : ∀ d : Nat, d ≤ t + 1 →
          layer' ((vals.length : Int) - cl - 1 + d) sx sy =
            geB vals xmin ymin d (q + 1 - d) sx sy := by
        intro d hd
        rcases Nat.lt_or_ge d (t + 1) with hdt | hdt
        · have : layer' ((vals.length : Int) - cl - 1 + d) =
              layer ((vals.length : Int) - cl - 1 + d) := by
            rw [hlayer']
            exact updLayer_other _ _ _ _ (by omega)
          rw [this]
          exact hlow d (by omega)
        · have hd' : d = t + 1 := by omega
          subst hd'
          rw [← hidx2, hnew]
          congr 1
          omega
      have hhigh' : ∀ d : Nat, t + 1 < d → d ≤ cl →
          layer' ((vals.length : Int) - cl - 1 + d) sx sy =
            geB vals xmin ymin d (q + 2 - d) sx sy := by
        intro d hd1 hd2
        have : layer' ((vals.length : Int) - cl - 1 + d) =
            layer ((vals.length : Int) - cl - 1 + d) := by
          rw [hlayer']
          exact updLayer_other _ _ _ _ (by omega)
        rw [this]
        exact hhigh d (by omega) hd2
      obtain ⟨hmain, hframe, hcache⟩ := ih (t + 1) q layer' (by omega)
        (by omega) hq1 hq2 hlow' hhigh' post hpost
      refine ⟨hmain, ?_, hcache⟩
      intro i hi
      have hlt : i < (vals.length : Int) - cl + ((t + 1 : Nat) : Int) := by
        push_cast; omega
      rw [hframe i hlt, hlayer']
      exact updLayer_other _ _ _ _ (by omega)

theorem lqgqBOuter_spec (vals : List Int) (xmin ymin : Int)
    (sx sy : Int → Bool) (cl cr : Nat) (n r : Int)
    (hm : vals.length = cr + 1) (hn : n = (cr : Int) + 1)
    (hr : r = (cr : Int)) (hcl : 1 ≤ cl) (hclcr : cl ≤ cr) :
    ∀ fuel (q : Nat) (layer : Int → bdd),
      fuel = q + 1 → cl ≤ q + 1 → q + 1 ≤ cr →
      (∀ d : Nat, d ≤ cl →
        layer ((vals.length : Int) - cl - 1 + d) sx sy =
          geB vals xmin ymin d (q + 2 - d) sx sy) →
      ∀ post, post = lqgqBOuter xmin ymin cl cr n r fuel layer
          ⟨vals, (q : Int), (vals.length : Int), (vals.length : Int)⟩ →
        (∀ d : Nat, d ≤ cl →
          post.1 ((vals.length : Int) - cl - 1 + d) sx sy =
            geB vals xmin ymin d (cl - d) sx sy) ∧
        post.2 = ⟨vals, -1, (vals.length : Int), (vals.length : Int)⟩ := by
  intro fuel
  induction fuel with
  | zero => intro q layer hf; exact absurd hf (by omega)
  | succ fuel ih =>
    intro q layer hf hq1 hq2 hinv post hpost
    simp only [lqgqBOuter, ValCache.index] at hpost
    have hv : ValCache.valid ⟨vals, (q : Int), (vals.length : Int),
        (vals.length : Int)⟩ = true := by
      simp only [ValCache.valid, Bool.and_eq_true, decide_eq_true_eq]
      omega
    rw [if_pos hv] at hpost
    have hiarg : n - (cl : Int) =
        (vals.length : Int) - cl + ((0 : Nat) : Int) := by
      rw [hn]; omega

    have hcarg : ((q : Nat) : Int) = (q : Int) - ((0 : Nat) : Int) := by
      push_cast; ring
    rw [hiarg] at hpost
    rw [show (⟨vals, (q : Int), (vals.length : Int), (vals.length : Int)⟩ :
        ValCache) = ⟨vals, (q : Int) - ((0 : Nat) : Int),
          (vals.length : Int), (vals.length : Int)⟩ by
      congr 1] at hpost
    rcases hsc : lqgqBInner xmin ymin cr r cl
        ((vals.length : Int) - cl + ((0 : Nat) : Int)) layer
        ⟨vals, (q : Int) - ((0 : Nat) : Int), (vals.length : Int),
          (vals.length : Int)⟩ with ⟨layer1, inter1⟩
    have hlow0 : ∀ d : Nat, d ≤ 0 →
        layer ((vals.length : Int) - cl - 1 + d) sx sy =
          geB vals xmin ymin d (q + 1 - d) sx sy := by
      intro d hd
      have hd0 : d = 0 := by omega
      subst hd0
      rw [hinv 0 (by omega), geB_zero, geB_zero]
    have hhigh0 : ∀ d : Nat, 0 < d → d ≤ cl →
        layer ((vals.length : Int) - cl - 1 + d) sx sy =
          geB vals xmin ymin d (q + 2 - d) sx sy := fun d _ hd2 => hinv d hd2
    obtain ⟨hmain, hfr, hcache⟩ := lqgqBInner_spec vals xmin ymin sx sy cl cr
      r hm hr hclcr cl 0 q layer (by omega) (by omega) hq1 hq2 hlow0 hhigh0
      (layer1, inter1) hsc.symm
    dsimp only at hmain hfr hcache
    subst hcache
    rw [hsc] at hpost
    dsimp only at hpost
    rcases Nat.eq_or_lt_of_le hq1 with hq | hq
    · have hvf : ValCache.valid ⟨vals, (q : Int) - cl, (vals.length : Int),
          (vals.length : Int)⟩ = false := by
        simp only [ValCache.valid, Bool.and_eq_false_iff, decide_eq_false_iff_not]
        left; omega
      rw [hvf] at hpost
      simp only [Bool.not_false, if_true] at hpost
      subst hpost
      dsimp only
      refine ⟨?_, ?_⟩
      · intro d hd
        rw [hmain d hd]
        congr 1
        omega
      · congr 1
        omega
    · have hvt : ValCache.valid ⟨vals, (q : Int) - cl, (vals.length : Int),
          (vals.length : Int)⟩ = true := by
        simp only [ValCache.valid, Bool.and_eq_true, decide_eq_true_eq]
        omega
      rw [hvt] at hpost
      simp only [Bool.not_true, if_false] at hpost
      rw [show ValCache.ret (ValCache.setIndex
          ⟨vals, (q : Int) - cl, (vals.length : Int), (vals.length : Int)⟩
          (q : Int)) =
          ⟨vals, ((q - 1 : Nat) : Int), (vals.length : Int),
            (vals.length : Int)⟩ by
        simp only [ValCache.setIndex, ValCache.ret]
        congr 1
        omega] at hpost
      exact ih (q - 1) layer1 (by omega) (by omega) (by omega)
        (fun d hd => by rw [hmain d hd]; congr 1; omega) post hpost

theorem lqgqBOuter_noop (vals : List Int) (xmin ymin : Int) (cr : Nat)
    (n r : Int) :
    ∀ fuel (q : Int) (layer : Int → bdd),
      fuel = (q + 1).toNat → -1 ≤ q → q ≤ (vals.length : Int) - 1 →
      lqgqBOuter xmin ymin 0 cr n r fuel layer
          ⟨vals, q, (vals.length : Int), (vals.length : Int)⟩ =
        (layer, ⟨vals, -1, (vals.length : Int), (vals.length : Int)⟩) := by
  intro fuel
  induction fuel with
  | zero =>
    intro q layer hf hq1 hq2
    have hq : q = -1 := by omega
    subst hq
    rfl
  | succ fuel ih =>
    intro q layer hf hq1 hq2
    have hq0 : 0 ≤ q := by omega
    simp only [lqgqBOuter, ValCache.index]
    have hv : ValCache.valid ⟨vals, q, (vals.length : Int),
        (vals.length : Int)⟩ = true := by
      simp only [ValCache.valid, Bool.and_eq_true, decide_eq_true_eq]
      omega
    rw [if_pos hv]
    have hinner : lqgqBInner xmin ymin cr r 0 (n - (0 : Nat))
        layer ⟨vals, q, (vals.length : Int), (vals.length : Int)⟩ =
        (layer, ⟨vals, q, (vals.length : Int), (vals.length : Int)⟩) := rfl
    rw [hinner]
    dsimp only
    rw [hv]
    simp only [Bool.not_true, if_false]
    rw [show ValCache.ret (ValCache.setIndex
        ⟨vals, q, (vals.length : Int), (vals.length : Int)⟩ q) =
        ⟨vals, q - 1, (vals.length : Int), (vals.length : Int)⟩ from rfl]
    exact ih (q - 1) layer (by omega) (by omega) (by omega)

theorem lqgqAB_spec (vals : List Int) (xmin ymin : Int)
    (sx sy : Int → Bool) (cl cr : Nat) (n r : Int)
    (hm : vals.length = cr + 1) (hn : n = (cr : Int) + 1)
    (hr : r = (cr : Int)) (hclcr : cl < cr) :
    ∀ post, post = lqgqAB xmin ymin (ValCache.init vals) cl cr n r →
      (∀ d : Nat, d ≤ cl →
        post.1 ((vals.length : Int) - cl - 1 + d) sx sy =
          geB vals xmin ymin d (cl - d) sx sy) ∧
      post.2 = ⟨vals, -1, (vals.length : Int), (vals.length : Int)⟩ := by
  intro post hpost
  have hm2 : 2 ≤ vals.length := by omega
  have hn' : n = (vals.length : Int) := by rw [hn, hm]; push_cast; ring
  simp only [lqgqAB, init_eq] at hpost
  rw [hn'] at hpost
  rw [show ValCache.last ⟨vals, 0, (vals.length : Int), (vals.length : Int)⟩ =
      ⟨vals, (vals.length : Int) - 1, (vals.length : Int),
        (vals.length : Int)⟩ by simp [ValCache.last]] at hpost
  set layer0 := updLayer (fun _ => bdd_false)
    ((vals.length : Int) - (cl : Int) - 1) bdd_true with hlayer0
  have hentry0 : layer0 ((vals.length : Int) - cl - 1 + ((0 : Nat) : Int))
      sx sy = geB vals xmin ymin 0 (vals.length - 0) sx sy := by
    rw [hlayer0, show (vals.length : Int) - cl - 1 + ((0 : Nat) : Int) =
        (vals.length : Int) - (cl : Int) - 1 by push_cast; ring,
      updLayer_same, geB_zero]
    rfl
  rcases hsc : lqgqSeedLoop xmin ymin cl ((vals.length : Int) - cl) layer0
      ⟨vals, (vals.length : Int) - 1, (vals.length : Int),
        (vals.length : Int)⟩ with ⟨layer1, inter1⟩
  have happ : lqgqSeedLoop xmin ymin cl ((vals.length : Int) - cl) layer0
      ⟨vals, (vals.length : Int) - 1, (vals.length : Int),
        (vals.length : Int)⟩ =
      lqgqSeedLoop xmin ymin cl
        ((vals.length : Int) - cl + ((0 : Nat) : Int)) layer0
        ⟨vals, (vals.length : Int) - 1 - ((0 : Nat) : Int),
          (vals.length : Int), (vals.length : Int)⟩ := by
    norm_num
  obtain ⟨hseed, hseedfr, hseedc⟩ := lqgqSeedLoop_spec vals xmin ymin sx sy cl
    cl 0 layer0 (by omega) (by omega) hentry0 (layer1, inter1)
    (hsc.symm.trans happ)
  dsimp only at hseed hseedfr hseedc
  subst hseedc
  rw [hsc] at hpost
  dsimp only at hpost
  rw [show ValCache.ret (ValCache.last ⟨vals,
      (vals.length : Int) - 1 - (cl : Int), (vals.length : Int),
      (vals.length : Int)⟩) = ⟨vals, (vals.length : Int) - 2,
        (vals.length : Int), (vals.length : Int)⟩ by
    simp only [ValCache.last, ValCache.ret]
    congr 1
    ring] at hpost
  dsimp only at hpost
  rcases Nat.eq_zero_or_pos cl with hcl0 | hcl1
  · subst hcl0
    have hnoop := lqgqBOuter_noop vals xmin ymin cr (vals.length : Int) r
      (((vals.length : Int) - 2) + 1).toNat ((vals.length : Int) - 2) layer1
      rfl (by omega) (by omega)
    rw [hnoop] at hpost
    subst hpost
    dsimp only
    refine ⟨?_, rfl⟩
    intro d hd
    have hd0 : d = 0 := by omega
    subst hd0
    rw [hseed 0 (by omega) (by omega), geB_zero, geB_zero]
  · rw [show ((vals.length : Int) - 2 : Int) = ((vals.length - 2 : Nat) : Int)
      by omega] at hpost
    have hfuel : (((vals.length - 2 : Nat) : Int) + 1).toNat =
        (vals.length - 2) + 1 := by omega
    rw [hfuel] at hpost
    have hinv : ∀ d : Nat, d ≤ cl →
        layer1 ((vals.length : Int) - cl - 1 + d) sx sy =
          geB vals xmin ymin d ((vals.length - 2) + 2 - d) sx sy := by
      intro d hd
      rw [hseed d (by omega) hd]
      congr 1
      omega
    obtain ⟨hb, hbc⟩ := lqgqBOuter_spec vals xmin ymin sx sy cl cr
      (vals.length : Int) r hm (by rw [hm]; push_cast; ring) hr hcl1
      (by omega) ((vals.length - 2) + 1) (vals.length - 2) layer1 rfl
      (by omega) (by omega) hinv post hpost
    exact ⟨fun d hd => hb d hd, hbc⟩

/-- The layer value after the connection/single-layer pass: layer `u`
accepts iff the count of shared values among the top `u + 1` cached
positions lies in the shifted window `[u - (cr - cl), u]`. -/
def winLB (vals : List Int) (xmin ymin : Int) (cl cr u : Nat)
    (sx sy : Int → Bool) : Bool :=
  decide ((u : Int) - cr + cl ≤
      (cntFrom vals xmin ymin (vals.length - 1 - u) sx sy : Int) ∧
    cntFrom vals xmin ymin (vals.length - 1 - u) sx sy ≤ u)

theorem ite_bdd_apply (P : Prop) [Decidable P] (A B : bdd)
    (sx sy : Int → Bool) :
    (if P then A else B) sx sy = if P then A sx sy else B sx sy := by
  split <;> rfl

theorem lqgqSingleLoop_spec (vals : List Int) (xmin ymin : Int)
    (sx sy : Int → Bool) (cl cr : Nat) (n : Int)
    (hm : vals.length = cr + 1) (hn : n = (cr : Int) + 1) (hclcr : cl ≤ cr) :
    ∀ fuel (t : Nat) (tb f : bdd) (layer : Int → bdd),
      fuel + t = vals.length →
      (t ≤ cr - cl + 1 → f sx sy = true) →
      (∀ d : Nat, 1 ≤ d → d ≤ cl → t ≤ cr - cl + d →
        layer ((vals.length : Int) - cl - 1 + d) sx sy =
          geB vals xmin ymin d (cl - d) sx sy) →
      (∀ u : Nat, u < t → layer (u : Int) sx sy =
        winLB vals xmin ymin cl cr u sx sy) →
      ∀ post, post = lqgqSingleLoop xmin ymin cl n fuel (t : Int) tb f layer
          ⟨vals, (vals.length : Int) - 1 - t, (vals.length : Int),
            (vals.length : Int)⟩ →
        (∀ u : Nat, u < vals.length → post.1 (u : Int) sx sy =
          winLB vals xmin ymin cl cr u sx sy) ∧
        post.2 = ⟨vals, -1, (vals.length : Int), (vals.length : Int)⟩ := by
  intro fuel
  induction fuel with
  | zero =>
    intro t tb f layer hft hf hold hdone post hpost
    subst hpost
    refine ⟨fun u hu => hdone u (by omega), ?_⟩
    rw [show (lqgqSingleLoop xmin ymin cl n 0 (t : Int) tb f layer
        ⟨vals, (vals.length : Int) - 1 - t, (vals.length : Int),
          (vals.length : Int)⟩).2 =
      ⟨vals, (vals.length : Int) - 1 - t, (vals.length : Int),
        (vals.length : Int)⟩ from rfl]
    congr 1
    omega
  | succ fuel ih =>
    intro t tb f layer hft hf hold hdone post hpost
    have htlen : t < vals.length := by omega
    have hj : vals.length - 1 - t < vals.length := by omega
    simp only [lqgqSingleLoop] at hpost
    have hmin : ValCache.min ⟨vals, (vals.length : Int) - 1 - t,
        (vals.length : Int), (vals.length : Int)⟩ =
        vals.getD (vals.length - 1 - t) 0 := by
      simp only [ValCache.min]
      congr 1
      omega
    rw [hmin] at hpost
    simp only [ValCache.ret] at hpost
    set Texpr := (if (t : Int) = 0 then bdd_false else
      layer ((t : Int) - 1)) with hT
    set Fexpr := (if (t : Int) = 0 then bdd_true else
      if (t : Int) > n - (cl : Int) - 1 then layer (t : Int) else f)
      with hF
    have hsucc := cntFrom_succ vals xmin ymin sx sy (vals.length - 1 - t) hj
    have hj1 : vals.length - 1 - t + 1 = vals.length - t := by omega
    rw [hj1] at hsucc
    have hb2 := cntFrom_le vals xmin ymin sx sy (vals.length - t)
    have hb2' : cntFrom vals xmin ymin (vals.length - t) sx sy ≤ t := by
      omega
    have hval : (manager_ite
        (xelement (vals.getD (vals.length - 1 - t) 0 - xmin))
        (manager_ite (yelement (vals.getD (vals.length - 1 - t) 0 - ymin))
          Texpr Fexpr) Fexpr) sx sy = winLB vals xmin ymin cl cr t sx sy := by
      rw [pair_ite_val]
      rcases Nat.eq_zero_or_pos t with ht0 | ht0
      · subst ht0
        rw [hT, hF, if_pos Nat.cast_zero, if_pos Nat.cast_zero]
        have hcnt0 : cntFrom vals xmin ymin (vals.length - 0) sx sy = 0 :=
          cntFrom_of_ge vals xmin ymin sx sy _ (by omega)
        rw [hcnt0] at hsucc
        simp only [winLB, bdd_false, bdd_true]
        split
        · rename_i h
          rw [if_pos h] at hsucc
          symm
          rw [decide_eq_false_iff_not]
          omega
        · rename_i h
          rw [if_neg h] at hsucc
          symm
          rw [decide_eq_true_eq]
          omega
      · have hc1 : ¬((t : Int) = 0) := by omega
        rw [hT, hF, if_neg hc1, if_neg hc1,
          show ((t : Int) - 1) = ((t - 1 : Nat) : Int) by omega,
          hdone (t - 1) (by omega)]
        rcases Nat.lt_or_ge (cr - cl) t with hgt | hle
        · have hc2 : (t : Int) > n - (cl : Int) - 1 := by
            rw [hn]; omega
          rw [if_pos hc2,
            show ((t : Nat) : Int) = (vals.length : Int) - cl - 1 +
              ((t - (cr - cl) : Nat) : Int) by omega,
            hold (t - (cr - cl)) (by omega) (by omega) (by omega)]
          have hidx1 : vals.length - 1 - (t - 1) = vals.length - t := by
            omega
          have hidx2 : cl - (t - (cr - cl)) = vals.length - 1 - t := by
            omega
          simp only [winLB, geB, hidx1, hidx2]
          split
          · rename_i h
            rw [if_pos h] at hsucc
            rw [decide_eq_decide]
            omega
          · rename_i h
            rw [if_neg h] at hsucc
            rw [decide_eq_decide]
            omega
        · have hc2 : ¬((t : Int) > n - (cl : Int) - 1) := by
            rw [hn]; omega
          rw [if_neg hc2, hf (by omega)]
          have hidx1 : vals.length - 1 - (t - 1) = vals.length - t := by
            omega
          simp only [winLB, hidx1]
          split
          · rename_i h
            rw [if_pos h] at hsucc
            rw [decide_eq_decide]
            omega
          · rename_i h
            rw [if_neg h] at hsucc
            symm
            rw [decide_eq_true_eq]
            omega
    have hf' : t + 1 ≤ cr - cl + 1 → Fexpr sx sy = true := by
      intro hle
      rw [hF]
      rcases Nat.eq_zero_or_pos t with ht0 | ht0
      · subst ht0
        rw [if_pos Nat.cast_zero]
        rfl
      · rw [if_neg (by omega : ¬((t : Int) = 0))]
        have hc2 : ¬((t : Int) > n - (cl : Int) - 1) := by
          rw [hn]; omega
        rw [if_neg hc2]
        exact hf (by omega)
    set layer' := updLayer layer (t : Int) (manager_ite
      (xelement (vals.getD (vals.length - 1 - t) 0 - xmin))
      (manager_ite (yelement (vals.getD (vals.length - 1 - t) 0 - ymin))
        Texpr Fexpr) Fexpr) with hlayer'
    have hdone' : ∀ u : Nat, u < t + 1 → layer' (u : Int) sx sy =
        winLB vals xmin ymin cl cr u sx sy := by
      intro u hu
      rcases Nat.lt_or_ge u t with hut | hut
      · rw [hlayer', updLayer_other _ _ _ _ (by omega)]
        exact hdone u hut
      · have hu' : u = t := by omega
        subst hu'
        rw [hlayer', updLayer_same]
        exact hval
    rcases Nat.lt_or_ge (t + 1) vals.length with hlt | hge
    · have hv : ValCache.valid ⟨vals, (vals.length : Int) - 1 - t - 1,
          (vals.length : Int), (vals.length : Int)⟩ = true := by
        simp only [ValCache.valid, Bool.and_eq_true, decide_eq_true_eq]
        omega
      rw [hv] at hpost
      simp only [Bool.not_true, if_false] at hpost
      rw [show ((t : Int) + 1) = ((t + 1 : Nat) : Int) by push_cast; ring,
        show (vals.length : Int) - 1 - (t : Int) - 1 =
          (vals.length : Int) - 1 - ((t + 1 : Nat) : Int) by
            push_cast; ring] at hpost
      have hold' : ∀ d : Nat, 1 ≤ d → d ≤ cl → t + 1 ≤ cr - cl + d →
          layer' ((vals.length : Int) - cl - 1 + d) sx sy =
            geB vals xmin ymin d (cl - d) sx sy := by
        intro d hd1 hd2 hd3
        rw [hlayer', updLayer_other _ _ _ _ (by omega)]
        exact hold d hd1 hd2 (by omega)
      exact ih (t + 1) Texpr Fexpr layer' (by omega) hf' hold' hdone'
        post hpost
    · have hv : ValCache.valid ⟨vals, (vals.length : Int) - 1 - t - 1,
          (vals.length : Int), (vals.length : Int)⟩ = false := by
        simp only [ValCache.valid, Bool.and_eq_false_iff,
          decide_eq_false_iff_not]
        left
        omega
      rw [hv] at hpost
      simp only [Bool.not_false, if_true] at hpost
      subst hpost
      dsimp only
      refine ⟨?_, ?_⟩
      · intro u hu
        exact hdone' u (by omega)
      · congr 1
        omega

/-! ## Claim C4 -/

theorem emptyLoopGo_spec (xmin ymin : Int) (r : List Int) (s : Int)
    (sx sy : Int → Bool) :
    ∀ fuel (c : Nat) (acc : bdd), fuel = r.length - c →
      extcardcheckEmptyLoop xmin ymin fuel acc
        ⟨r, (c : Int), (r.length : Int), s⟩ sx sy =
      (acc sx sy &&
        (r.drop c).all fun v => !sx (v - xmin) && !sy (v - ymin)) := by
  intro fuel
  induction fuel with
  | zero =>
    intro c acc hc
    have : r.length ≤ c := by omega
    simp [extcardcheckEmptyLoop, List.drop_eq_nil_iff.mpr this]
  | succ fuel ih =>
    intro c acc hc
    have hlt : c < r.length := by omega
    have hv : ValCache.valid ⟨r, (c : Int), (r.length : Int), s⟩ = true := by
      simp only [ValCache.valid, Bool.and_eq_true, decide_eq_true_eq]
      omega
    simp only [extcardcheckEmptyLoop, hv, if_pos]
    have hadv : (ValCache.adv ⟨r, (c : Int), (r.length : Int), s⟩) =
        ⟨r, ((c + 1 : Nat) : Int), (r.length : Int), s⟩ := by
      simp [ValCache.adv]
    have hm : ValCache.min ⟨r, (c : Int), (r.length : Int), s⟩ =
        r.getD c 0 := by
      simp [ValCache.min]
    rw [hadv, hm, ih (c + 1) _ (by omega), drop_cons_getD r c hlt]
    simp [bdd_and, xelementNeg, yelementNeg, Bool.and_assoc]

theorem fullLoopGo_spec (xmin ymin : Int) (r : List Int) (s : Int)
    (sx sy : Int → Bool) :
    ∀ fuel (c : Nat) (acc : bdd), fuel = r.length - c →
      extcardcheckFullLoop xmin ymin fuel acc
        ⟨r, (c : Int), (r.length : Int), s⟩ sx sy =
      (acc sx sy &&
        (r.drop c).all fun v => sx (v - xmin) && sy (v - ymin)) := by
  intro fuel
  induction fuel with
  | zero =>
    intro c acc hc
    have : r.length ≤ c := by omega
    simp [extcardcheckFullLoop, List.drop_eq_nil_iff.mpr this]
  | succ fuel ih =>
    intro c acc hc
    have hlt : c < r.length := by omega
    have hv : ValCache.valid ⟨r, (c : Int), (r.length : Int), s⟩ = true := by
      simp only [ValCache.valid, Bool.and_eq_true, decide_eq_true_eq]
      omega
    simp only [extcardcheckFullLoop, hv, if_pos]
    have hadv : (ValCache.adv ⟨r, (c : Int), (r.length : Int), s⟩) =
        ⟨r, ((c + 1 : Nat) : Int), (r.length : Int), s⟩ := by
      simp [ValCache.adv]
    have hm : ValCache.min ⟨r, (c : Int), (r.length : Int), s⟩ =
        r.getD c 0 := by
      simp [ValCache.min]
    rw [hadv, hm, ih (c + 1) _ (by omega), drop_cons_getD r c hlt]
    simp [bdd_and, xelement, yelement, Bool.and_assoc]

/-- C4: for a well-formed window, when `cr == 0` the result is the
conjunction over every intersection position of both negated literals
(only the all-false assignment accepts); when `cl == cr == isize` it is
the conjunction of both positive literals at every position (only the
all-true assignment accepts); and when `cl == 0` and `cr == isize` it is
the universally-true diagram. -/
theorem extcardcheck_degenerate (vals : List Int) (xmin ymin : Int) :
    (∀ cl cr : Nat, cl ≤ cr → cr = 0 → ∀ sx sy : Int → Bool,
      (extcardcheck vals xmin ymin cl cr sx sy = true ↔
        ∀ v ∈ vals, sx (v - xmin) = false ∧ sy (v - ymin) = false)) ∧
    (∀ sx sy : Int → Bool,
      (extcardcheck vals xmin ymin vals.length vals.length sx sy = true ↔
        ∀ v ∈ vals, sx (v - xmin) = true ∧ sy (v - ymin) = true)) ∧
    (∀ sx sy : Int → Bool, extcardcheck vals xmin ymin 0 vals.length sx sy
      = true) := by
  refine ⟨?_, ?_, ?_⟩
  · intro cl cr hcl hcr sx sy
    have hcl0 : cl = 0 := by omega
    subst hcl0; subst hcr
    simp only [extcardcheck, extcardcheckCache, init_eq, ValCache.size,
      Int.toNat_ofNat]
    split_ifs with h1 h2 h3 <;> try omega
    have := emptyLoopGo_spec xmin ymin vals (vals.length : Int) sx sy
      vals.length 0 bdd_true (by omega)
    simp only [Nat.cast_zero, List.drop_zero] at this
    rw [show ((vals.length : Int) - 0).toNat = vals.length by omega, this]
    simp [bdd_true, List.all_eq_true]
  · intro sx sy
    by_cases h0 : vals.length = 0
    · rw [List.length_eq_zero.mp h0]
      simp [extcardcheck, extcardcheckCache, init_eq, ValCache.size,
        extcardcheckEmptyLoop, bdd_true]
    · simp only [extcardcheck, extcardcheckCache, init_eq, ValCache.size,
        Int.toNat_ofNat]
      split_ifs with h1 h2 h3 h4 <;> try omega
      have := fullLoopGo_spec xmin ymin vals (vals.length : Int) sx sy
        vals.length 0 bdd_true (by omega)
      simp only [Nat.cast_zero, List.drop_zero] at this
      rw [show ((vals.length : Int) - 0).toNat = vals.length by omega, this]
      simp [bdd_true, List.all_eq_true]
  · intro sx sy
    by_cases h0 : vals.length = 0
    · rw [List.length_eq_zero.mp h0]
      simp [extcardcheck, extcardcheckCache, init_eq, ValCache.size,
        extcardcheckEmptyLoop, bdd_true]
    · simp only [extcardcheck, extcardcheckCache, init_eq, ValCache.size,
        Int.toNat_ofNat]
      split_ifs <;>
        first
          | omega
          | rfl
          | exact absurd (⟨rfl, trivial⟩ : vals.length = vals.length ∧ True)
              (by assumption)

/-- Witness for C4 at the concrete intersection `{1, 2}`. -/
theorem extcardcheck_degenerate_witness :
    extcardcheck [1, 2] 0 0 0 0 (fun _ => false) (fun _ => false) = true ∧
    extcardcheck [1, 2] 0 0 2 2 (fun _ => true) (fun _ => true) = true ∧
    extcardcheck [1, 2] 0 0 0 2 (fun _ => false) (fun _ => true) = true :=
  ⟨((extcardcheck_degenerate [1, 2] 0 0).1 0 0 le_rfl rfl _ _).mpr
      (by decide),
    ((extcardcheck_degenerate [1, 2] 0 0).2.1 _ _).mpr (by decide),
    (extcardcheck_degenerate [1, 2] 0 0).2.2 _ _⟩

/-! ## Claim C10 -/

/-- The cache frame: equal stored array, range count and element count
(the cursor is unconstrained). -/
def cacheFrame (a b : ValCache) : Prop :=
  a.r = b.r ∧ a.n = b.n ∧ a.s = b.s

theorem cacheFrame_refl (v : ValCache) : cacheFrame v v := ⟨rfl, rfl, rfl⟩

theorem cacheFrame_trans {a b c : ValCache} (h1 : cacheFrame a b)
    (h2 : cacheFrame b c) : cacheFrame a c :=
  ⟨h1.1.trans h2.1, h1.2.1.trans h2.2.1, h1.2.2.trans h2.2.2⟩

theorem frame_ret (v : ValCache) : cacheFrame v.ret v := ⟨rfl, rfl, rfl⟩

theorem frame_last (v : ValCache) : cacheFrame v.last v := ⟨rfl, rfl, rfl⟩

theorem frame_finish (v : ValCache) : cacheFrame v.finish v := ⟨rfl, rfl, rfl⟩

theorem frame_setIndex (v : ValCache) (i : Int) :
    cacheFrame (v.setIndex i) v := ⟨rfl, rfl, rfl⟩

theorem extcardeqInner_frame (xmin ymin : Int) :
    ∀ fuel (i : Int) layer inter,
      cacheFrame (extcardeqInner xmin ymin fuel i layer inter).2 inter := by
  intro fuel
  induction fuel with
  | zero => intro i layer inter; exact cacheFrame_refl _
  | succ fuel ih =>
    intro i layer inter
    simp only [extcardeqInner]
    split
    · exact frame_ret _
    · exact cacheFrame_trans (ih _ _ _) (frame_ret _)

theorem extcardeqOuter_frame (xmin ymin : Int) (n : Int) :
    ∀ fuel layer inter,
      cacheFrame (extcardeqOuter xmin ymin n fuel layer inter).2 inter := by
  intro fuel
  induction fuel with
  | zero => intro layer inter; exact cacheFrame_refl _
  | succ fuel ih =>
    intro layer inter
    simp only [extcardeqOuter]
    split
    · split
      · exact extcardeqInner_frame xmin ymin _ _ _ _
      · exact cacheFrame_trans (ih _ _)
          (cacheFrame_trans (frame_ret _)
            (cacheFrame_trans (frame_setIndex _ _)
              (extcardeqInner_frame xmin ymin _ _ _ _)))
    · exact cacheFrame_refl _

theorem lqgqSeedLoop_frame (xmin ymin : Int) :
    ∀ fuel (i : Int) layer inter,
      cacheFrame (lqgqSeedLoop xmin ymin fuel i layer inter).2 inter := by
  intro fuel
  induction fuel with
  | zero => intro i layer inter; exact cacheFrame_refl _
  | succ fuel ih =>
    intro i layer inter
    simp only [lqgqSeedLoop]
    exact cacheFrame_trans (ih _ _ _) (frame_ret _)

theorem lqgqBInner_frame (xmin ymin : Int) (cr : Nat) (r : Int) :
    ∀ fuel (i : Int) layer inter,
      cacheFrame (lqgqBInner xmin ymin cr r fuel i layer inter).2 inter := by
  intro fuel
  induction fuel with
  | zero => intro i layer inter; exact cacheFrame_refl _
  | succ fuel ih =>
    intro i layer inter
    simp only [lqgqBInner]
    split
    · exact cacheFrame_trans (frame_finish _) (frame_ret _)
    · exact cacheFrame_trans (ih _ _ _) (frame_ret _)

theorem lqgqBOuter_frame (xmin ymin : Int) (cl cr : Nat) (n r : Int) :
    ∀ fuel layer inter,
      cacheFrame (lqgqBOuter xmin ymin cl cr n r fuel layer inter).2 inter := by
  intro fuel
  induction fuel with
  | zero => intro layer inter; exact cacheFrame_refl _
  | succ fuel ih =>
    intro layer inter
    simp only [lqgqBOuter]
    split
    · split
      · exact lqgqBInner_frame xmin ymin cr r _ _ _ _
      · exact cacheFrame_trans (ih _ _)
          (cacheFrame_trans (frame_ret _)
            (cacheFrame_trans (frame_setIndex _ _)
              (lqgqBInner_frame xmin ymin cr r _ _ _ _)))
    · exact cacheFrame_refl _

theorem lqgqSingleLoop_frame (xmin ymin : Int) (cl : Nat) (n : Int) :
    ∀ fuel (i : Int) t f layer inter,
      cacheFrame (lqgqSingleLoop xmin ymin cl n fuel i t f layer inter).2
        inter := by
  intro fuel
  induction fuel with
  | zero => intro i t f layer inter; exact cacheFrame_refl _
  | succ fuel ih =>
    intro i t f layer inter
    simp only [lqgqSingleLoop]
    split
    · exact frame_ret _
    · exact cacheFrame_trans (ih _ _ _ _ _) (frame_ret _)

theorem lqgqConnLoop_frame (xmin ymin : Int) (cl : Nat) (n : Int) :
    ∀ fuel (i : Int) t f layer inter,
      cacheFrame (lqgqConnLoop xmin ymin cl n fuel i t f layer inter).2
        inter := by
  intro fuel
  induction fuel with
  | zero => intro i t f layer inter; exact cacheFrame_refl _
  | succ fuel ih =>
    intro i t f layer inter
    simp only [lqgqConnLoop]
    split
    · exact frame_ret _
    · exact cacheFrame_trans (ih _ _ _ _ _) (frame_ret _)

theorem lqgqUpInner_frame (xmin ymin : Int) :
    ∀ fuel (i : Int) layer inter,
      cacheFrame (lqgqUpInner xmin ymin fuel i layer inter).2 inter := by
  intro fuel
  induction fuel with
  | zero => intro i layer inter; exact cacheFrame_refl _
  | succ fuel ih =>
    intro i layer inter
    simp only [lqgqUpInner]
    split
    · exact frame_ret _
    · exact cacheFrame_trans (ih _ _ _) (frame_ret _)

theorem lqgqUpOuter_frame (xmin ymin : Int) (n : Int) :
    ∀ fuel layer inter,
      cacheFrame (lqgqUpOuter xmin ymin n fuel layer inter).2 inter := by
  intro fuel
  induction fuel with
  | zero => intro layer inter; exact cacheFrame_refl _
  | succ fuel ih =>
    intro layer inter
    simp only [lqgqUpOuter]
    split
    · split
      · exact lqgqUpInner_frame xmin ymin _ _ _ _
      · exact cacheFrame_trans (ih _ _)
          (cacheFrame_trans (frame_ret _)
            (cacheFrame_trans (frame_setIndex _ _)
              (lqgqUpInner_frame xmin ymin _ _ _ _)))
    · exact cacheFrame_refl _

theorem extcardeq_frame (xmin ymin : Int) (inter : ValCache) (c : Nat)
    (n r : Int) : cacheFrame (extcardeq xmin ymin inter c n r).2 inter := by
  simp only [extcardeq]
  exact cacheFrame_trans (extcardeqOuter_frame xmin ymin n _ _ _)
    (cacheFrame_trans (frame_last _) (frame_last _))

theorem lqgqAB_frame (xmin ymin : Int) (inter : ValCache) (cl cr : Nat)
    (n r : Int) : cacheFrame (lqgqAB xmin ymin inter cl cr n r).2 inter := by
  simp only [lqgqAB]
  exact cacheFrame_trans (lqgqBOuter_frame xmin ymin cl cr n r _ _ _)
    (cacheFrame_trans (frame_ret _)
      (cacheFrame_trans (frame_last _)
        (cacheFrame_trans (lqgqSeedLoop_frame xmin ymin _ _ _ _)
          (frame_last _))))

theorem lqgqSingle_frame (xmin ymin : Int) (cl : Nat) (n : Int)
    (layer : Int → bdd) (inter : ValCache) :
    cacheFrame (lqgqSingle xmin ymin cl n layer inter).2 inter := by
  simp only [lqgqSingle]
  exact cacheFrame_trans (lqgqSingleLoop_frame xmin ymin cl n _ _ _ _ _ _)
    (frame_last _)

theorem lqgqGeneric_frame (xmin ymin : Int) (cl : Nat) (n : Int)
    (layer : Int → bdd) (inter : ValCache) :
    cacheFrame (lqgqGeneric xmin ymin cl n layer inter).2 inter := by
  simp only [lqgqGeneric]
  exact cacheFrame_trans (lqgqUpOuter_frame xmin ymin n _ _ _)
    (cacheFrame_trans (frame_ret _)
      (cacheFrame_trans (frame_last _)
        (cacheFrame_trans (lqgqConnLoop_frame xmin ymin cl n _ _ _ _ _ _)
          (frame_last _))))

theorem extcardlqgq_frame (xmin ymin : Int) (inter : ValCache) (cl cr : Nat)
    (n r : Int) : cacheFrame (extcardlqgq xmin ymin inter cl cr n r).2 inter := by
  simp only [extcardlqgq]
  split
  · exact lqgqAB_frame xmin ymin inter cl cr n r
  · split
    · exact cacheFrame_trans (lqgqSingle_frame xmin ymin cl n _ _)
        (lqgqAB_frame xmin ymin inter cl cr n r)
    · exact cacheFrame_trans (lqgqGeneric_frame xmin ymin cl n _ _)
        (lqgqAB_frame xmin ymin inter cl cr n r)

/-- C10: `extcardeq` and `extcardlqgq` leave the cache's stored array
`r`, range count `n` and element count `s` unchanged; only the cursor
`c` may differ between entry and return. -/
theorem extcard_builders_frame (xmin ymin : Int) (inter : ValCache)
    (c cl cr : Nat) (n r : Int) :
    ((extcardeq xmin ymin inter c n r).2.r = inter.r ∧
      (extcardeq xmin ymin inter c n r).2.n = inter.n ∧
      (extcardeq xmin ymin inter c n r).2.s = inter.s) ∧
    ((extcardlqgq xmin ymin inter cl cr n r).2.r = inter.r ∧
      (extcardlqgq xmin ymin inter cl cr n r).2.n = inter.n ∧
      (extcardlqgq xmin ymin inter cl cr n r).2.s = inter.s) :=
  ⟨extcardeq_frame xmin ymin inter c n r,
    extcardlqgq_frame xmin ymin inter cl cr n r⟩

/-! ## Claim C5 -/

/-- C5's middle part fails as stated: when `required` lies outside the
global value limits, the out-of-range check precedes the containment
check, so a non-empty `required` not contained in `allowed` yields
`OutOfRangeDomain`, not `FailedDomain`. -/
theorem testConsistency_c5_counterexample :
    (IntSet.size ⟨[(1073741823, 1073741823)]⟩ > 0 ∧
      ¬(IntSet.smin ⟨[(3, 4)]⟩ ≤ IntSet.smin ⟨[(1073741823, 1073741823)]⟩ ∧
        IntSet.smax ⟨[(1073741823, 1073741823)]⟩ ≤ IntSet.smax ⟨[(3, 4)]⟩)) ∧
    testConsistency ⟨[(1073741823, 1073741823)]⟩ ⟨[(3, 4)]⟩ 1 1 =
      CheckResult.outOfRangeDomain ∧
    CheckResult.outOfRangeDomain ≠ CheckResult.failedDomain := by
  refine ⟨⟨?_, ?_⟩, ?_, ?_⟩ <;> decide

/-- C5 amended: `testConsistency` returns normally for
`required = [2,5]`, `allowed = [0,10]`, `cardMin = 1`, `cardMax = 3`; it
signals `FailedDomain` whenever the required range is non-empty, its
bounds lie within the global value limits, and its `[min, max]` is not
fully contained in allowed's `[min, max]`; and, when the domain checks
pass and `cardMax` does not exceed the global cardinality limit, it
signals `FailedDomain` whenever `cardMin > cardMax`. -/
theorem testConsistency_c5_amended :
    testConsistency ⟨[(2, 5)]⟩ ⟨[(0, 10)]⟩ 1 3 = CheckResult.ok ∧
    (∀ glb lub : IntSet, ∀ cMin cMax : Int,
      glb.size > 0 → limitsMin ≤ glb.smin → glb.smax ≤ limitsMax →
      ¬(lub.smin ≤ glb.smin ∧ glb.smax ≤ lub.smax) →
      testConsistency glb lub cMin cMax = CheckResult.failedDomain) ∧
    (∀ glb lub : IntSet, ∀ cMin cMax : Int,
      testConsistencyDomains glb lub = none → cMax ≤ limitsCard →
      cMin > cMax →
      testConsistency glb lub cMin cMax = CheckResult.failedDomain) := by
  refine ⟨by decide, ?_, ?_⟩
  · intro glb lub cMin cMax hne hlo hhi hcont
    have hd : testConsistencyDomains glb lub = some CheckResult.failedDomain := by
      simp only [testConsistencyDomains]
      split_ifs <;> first | rfl | omega
    simp only [testConsistency, hd]
  · intro glb lub cMin cMax hd hcard hmin
    simp only [testConsistency, hd, testConsistencyCard]
    split_ifs <;> first | rfl | omega

/-- Witness for C5 amended: the claim's own example inputs. -/
theorem testConsistency_c5_amended_witness :
    testConsistency ⟨[(2, 5)]⟩ ⟨[(3, 4)]⟩ 1 3 = CheckResult.failedDomain ∧
    testConsistency ⟨[]⟩ ⟨[]⟩ 4 2 = CheckResult.failedDomain :=
  ⟨testConsistency_c5_amended.2.1 ⟨[(2, 5)]⟩ ⟨[(3, 4)]⟩ 1 3 (by decide)
      (by decide) (by decide) (by decide),
    testConsistency_c5_amended.2.2 ⟨[]⟩ ⟨[]⟩ 4 2 (by decide) (by decide)
      (by decide)⟩

/-! ## Claim C6 -/

/-- C6 fails as stated: when `cardMax` exceeds the global cardinality
limit the code throws `VariableOutOfRangeCardinality`, not the claimed
`OutOfRangeDomain`. -/
theorem testConsistency_c6_counterexample :
    testConsistency ⟨[]⟩ ⟨[]⟩ 0 (limitsCard + 1) =
      CheckResult.outOfRangeCardinality ∧
    CheckResult.outOfRangeCardinality ≠ CheckResult.outOfRangeDomain := by
  constructor <;> decide

/-- C6 amended: on inputs passing the domain checks, `testConsistency`
signals `FailedDomain` when `cardMax < 0`, `OutOfRangeCardinality` when
`cardMax` exceeds the global cardinality limit, and `FailedDomain` when
`cardMin` lies outside `[0, cardMax]` (with `cardMax` within the
limit). -/
theorem testConsistency_c6_amended (glb lub : IntSet) (cMin cMax : Int)
    (hd : testConsistencyDomains glb lub = none) :
    (cMax < 0 → testConsistency glb lub cMin cMax = CheckResult.failedDomain) ∧
    (0 ≤ cMax → cMax > limitsCard →
      testConsistency glb lub cMin cMax = CheckResult.outOfRangeCardinality) ∧
    (cMax ≤ limitsCard → cMin < 0 ∨ cMin > cMax →
      testConsistency glb lub cMin cMax = CheckResult.failedDomain) := by
  refine ⟨?_, ?_, ?_⟩ <;> intro h1 <;> try intro h2
  all_goals
    simp only [testConsistency, hd, testConsistencyCard]
  all_goals split_ifs <;> first | rfl | omega

/-- Witness for C6 amended at concrete inputs. -/
theorem testConsistency_c6_amended_witness :
    testConsistency ⟨[]⟩ ⟨[]⟩ 0 (-1) = CheckResult.failedDomain ∧
    testConsistency ⟨[]⟩ ⟨[]⟩ 0 (limitsCard + 1) =
      CheckResult.outOfRangeCardinality ∧
    testConsistency ⟨[]⟩ ⟨[]⟩ 4 2 = CheckResult.failedDomain :=
  ⟨(testConsistency_c6_amended ⟨[]⟩ ⟨[]⟩ 0 (-1) (by decide)).1 (by decide),
    (testConsistency_c6_amended ⟨[]⟩ ⟨[]⟩ 0 (limitsCard + 1) (by decide)).2.1
      (by decide) (by decide),
    (testConsistency_c6_amended ⟨[]⟩ ⟨[]⟩ 4 2 (by decide)).2.2 (by decide)
      (by decide)⟩

/-! ## Claim C7 -/

/-- What the spec describes as the generic two-phase construction, run
unconditionally on the same inputs: seed and window phases, then the
connection-layer pass and the upper-region passes, returning layer
`n - 1`.  This is the comparison point for C7's equivalence. -/
def extcardlqgqForcedGeneric (xmin ymin : Int) (inter : ValCache)
    (cl cr : Nat) (n r : Int) : bdd × ValCache :=
  let (layer, inter) := lqgqAB xmin ymin inter cl cr n r
  let (layer, inter) := lqgqGeneric xmin ymin cl n layer inter
  (layer (n - 1), inter)

theorem lqgqConnLoop_spec (vals : List Int) (xmin ymin : Int)
    (sx sy : Int → Bool) (cl cr : Nat) (n : Int)
    (hm : vals.length = cr + 1) (hn : n = (cr : Int) + 1) (hclcr : cl ≤ cr) :
    ∀ fuel (t : Nat) (tb f : bdd) (layer : Int → bdd),
      fuel + t = vals.length →
      (t ≤ cr - cl + 1 → f sx sy = true) →
      (∀ d : Nat, 1 ≤ d → d ≤ cl → t ≤ cr - cl + d →
        layer ((vals.length : Int) - cl - 1 + d) sx sy =
          geB vals xmin ymin d (cl - d) sx sy) →
      (∀ u : Nat, u < t → layer (u : Int) sx sy =
        winLB vals xmin ymin cl cr u sx sy) →
      ∀ post, post = lqgqConnLoop xmin ymin cl n fuel (t : Int) tb f layer
          ⟨vals, (vals.length : Int) - 1 - t, (vals.length : Int),
            (vals.length : Int)⟩ →
        (∀ u : Nat, u < vals.length → post.1 (u : Int) sx sy =
          winLB vals xmin ymin cl cr u sx sy) ∧
        post.2 = ⟨vals, -1, (vals.length : Int), (vals.length : Int)⟩ := by
  intro fuel
  induction fuel with
  | zero =>
    intro t tb f layer hft hf hold hdone post hpost
    subst hpost
    refine ⟨fun u hu => hdone u (by omega), ?_⟩
    rw [show (lqgqConnLoop xmin ymin cl n 0 (t : Int) tb f layer
        ⟨vals, (vals.length : Int) - 1 - t, (vals.length : Int),
          (vals.length : Int)⟩).2 =
      ⟨vals, (vals.length : Int) - 1 - t, (vals.length : Int),
        (vals.length : Int)⟩ from rfl]
    congr 1
    omega
  | succ fuel ih =>
    intro t tb f layer hft hf hold hdone post hpost
    have htlen : t < vals.length := by omega
    have hj : vals.length - 1 - t < vals.length := by omega
    simp only [lqgqConnLoop] at hpost
    have hmin : ValCache.min ⟨vals, (vals.length : Int) - 1 - t,
        (vals.length : Int), (vals.length : Int)⟩ =
        vals.getD (vals.length - 1 - t) 0 := by
      simp only [ValCache.min]
      congr 1
      omega
    rw [hmin] at hpost
    simp only [ValCache.ret] at hpost
    set Texpr := (if (t : Int) = 0 then bdd_false else
      layer ((t : Int) - 1)) with hT
    set Fexpr := (if (t : Int) ≠ 0 ∧ (t : Int) > n - (cl : Int) - 1 ∧ 0 < cl
      then layer (t : Int) else f) with hF
    have hsucc := cntFrom_succ vals xmin ymin sx sy (vals.length - 1 - t) hj
    have hj1 : vals.length - 1 - t + 1 = vals.length - t := by omega
    rw [hj1] at hsucc
    have hb2 := cntFrom_le vals xmin ymin sx sy (vals.length - t)
    have hb2' : cntFrom vals xmin ymin (vals.length - t) sx sy ≤ t := by
      omega
    have hval : (manager_ite
        (xelement (vals.getD (vals.length - 1 - t) 0 - xmin))
        (manager_ite (yelement (vals.getD (vals.length - 1 - t) 0 - ymin))
          Texpr Fexpr) Fexpr) sx sy = winLB vals xmin ymin cl cr t sx sy := by
      rw [pair_ite_val]
      rcases Nat.eq_zero_or_pos t with ht0 | ht0
      · subst ht0
        rw [hT, hF, if_pos Nat.cast_zero,
          if_neg (show ¬(((0 : Nat) : Int) ≠ 0 ∧
            ((0 : Nat) : Int) > n - (cl : Int) - 1 ∧ 0 < cl) by simp),
          hf (by omega)]
        have hcnt0 : cntFrom vals xmin ymin (vals.length - 0) sx sy = 0 :=
          cntFrom_of_ge vals xmin ymin sx sy _ (by omega)
        rw [hcnt0] at hsucc
        simp only [winLB, bdd_false]
        split
        · rename_i h
          rw [if_pos h] at hsucc
          symm
          rw [decide_eq_false_iff_not]
          omega
        · rename_i h
          rw [if_neg h] at hsucc
          symm
          rw [decide_eq_true_eq]
          omega
      · have hc1 : ¬((t : Int) = 0) := by omega
        rw [hT, hF, if_neg hc1,
          show ((t : Int) - 1) = ((t - 1 : Nat) : Int) by omega,
          hdone (t - 1) (by omega)]
        rcases Nat.lt_or_ge (cr - cl) t with hgt | hle
        · have hc2 : ((t : Int) ≠ 0 ∧ (t : Int) > n - (cl : Int) - 1 ∧
              0 < cl) := ⟨hc1, by rw [hn]; omega, by omega⟩
          rw [if_pos hc2,
            show ((t : Nat) : Int) = (vals.length : Int) - cl - 1 +
              ((t - (cr - cl) : Nat) : Int) by omega,
            hold (t - (cr - cl)) (by omega) (by omega) (by omega)]
          have hidx1 : vals.length - 1 - (t - 1) = vals.length - t := by
            omega
          have hidx2 : cl - (t - (cr - cl)) = vals.length - 1 - t := by
            omega
          simp only [winLB, geB, hidx1, hidx2]
          split
          · rename_i h
            rw [if_pos h] at hsucc
            rw [decide_eq_decide]
            omega
          · rename_i h
            rw [if_neg h] at hsucc
            rw [decide_eq_decide]
            omega
        · have hc2 : ¬((t : Int) ≠ 0 ∧ (t : Int) > n - (cl : Int) - 1 ∧
              0 < cl) := by
            rw [hn]
            omega
          rw [if_neg hc2, hf (by omega)]
          have hidx1 : vals.length - 1 - (t - 1) = vals.length - t := by
            omega
          simp only [winLB, hidx1]
          split
          · rename_i h
            rw [if_pos h] at hsucc
            rw [decide_eq_decide]
            omega
          · rename_i h
            rw [if_neg h] at hsucc
            symm
            rw [decide_eq_true_eq]
            omega
    have hf' : t + 1 ≤ cr - cl + 1 → Fexpr sx sy = true := by
      intro hle2
      rw [hF, if_neg (show ¬((t : Int) ≠ 0 ∧
        (t : Int) > n - (cl : Int) - 1 ∧ 0 < cl) by rw [hn]; omega)]
      exact hf (by omega)
    set layer' := updLayer layer (t : Int) (manager_ite
      (xelement (vals.getD (vals.length - 1 - t) 0 - xmin))
      (manager_ite (yelement (vals.getD (vals.length - 1 - t) 0 - ymin))
        Texpr Fexpr) Fexpr) with hlayer'
    have hdone' : ∀ u : Nat, u < t + 1 → layer' (u : Int) sx sy =
        winLB vals xmin ymin cl cr u sx sy := by
      intro u hu
      rcases Nat.lt_or_ge u t with hut | hut
      · rw [hlayer', updLayer_other _ _ _ _ (by omega)]
        exact hdone u hut
      · have hu' : u = t := by omega
        subst hu'
        rw [hlayer', updLayer_same]
        exact hval
    rcases Nat.lt_or_ge (t + 1) vals.length with hlt | hge
    · have hv : ValCache.valid ⟨vals, (vals.length : Int) - 1 - t - 1,
          (vals.length : Int), (vals.length : Int)⟩ = true := by
        simp only [ValCache.valid, Bool.and_eq_true, decide_eq_true_eq]
        omega
      rw [hv] at hpost
      simp only [Bool.not_true, if_false] at hpost
      rw [show ((t : Int) + 1) = ((t + 1 : Nat) : Int) by push_cast; ring,
        show (vals.length : Int) - 1 - (t : Int) - 1 =
          (vals.length : Int) - 1 - ((t + 1 : Nat) : Int) by
            push_cast; ring] at hpost
      have hold' : ∀ d : Nat, 1 ≤ d → d ≤ cl → t + 1 ≤ cr - cl + d →
          layer' ((vals.length : Int) - cl - 1 + d) sx sy =
            geB vals xmin ymin d (cl - d) sx sy := by
        intro d hd1 hd2 hd3
        rw [hlayer', updLayer_other _ _ _ _ (by omega)]
        exact hold d hd1 hd2 (by omega)
      exact ih (t + 1) Texpr Fexpr layer' (by omega) hf' hold' hdone'
        post hpost
    · have hv : ValCache.valid ⟨vals, (vals.length : Int) - 1 - t - 1,
          (vals.length : Int), (vals.length : Int)⟩ = false := by
        simp only [ValCache.valid, Bool.and_eq_false_iff,
          decide_eq_false_iff_not]
        left
        omega
      rw [hv] at hpost
      simp only [Bool.not_false, if_true] at hpost
      subst hpost
      dsimp only
      refine ⟨?_, ?_⟩
      · intro u hu
        exact hdone' u (by omega)
      · congr 1
        omega

theorem lqgqUpInner_run (xmin ymin : Int) (vals : List Int) (mlen s : Int) :
    ∀ c : Nat, (c : Int) < mlen →
      ∀ fuel, c + 1 ≤ fuel → ∀ (i : Int) (layer : Int → bdd),
      ∀ post, post = lqgqUpInner xmin ymin fuel i layer
          ⟨vals, (c : Int), mlen, s⟩ →
        (∀ j : Int, i + (c : Int) < j → post.1 j = layer j) ∧
        post.2 = ⟨vals, -1, mlen, s⟩ := by
  intro c
  induction c with
  | zero =>
    intro hc fuel hfuel i layer post hpost
    obtain ⟨fuel', rfl⟩ : ∃ k, fuel = k + 1 := ⟨fuel - 1, by omega⟩
    simp only [lqgqUpInner, ValCache.ret, Nat.cast_zero, zero_sub] at hpost
    have hv : ValCache.valid ⟨vals, -1, mlen, s⟩ = false := by
      simp only [ValCache.valid, Bool.and_eq_false_iff,
        decide_eq_false_iff_not]
      left
      omega
    rw [hv] at hpost
    simp only [Bool.not_false, if_true] at hpost
    subst hpost
    dsimp only
    refine ⟨?_, rfl⟩
    intro j hj
    rw [updLayer_other _ _ _ _ (by omega)]
  | succ c ih =>
    intro hc fuel hfuel i layer post hpost
    obtain ⟨fuel', rfl⟩ : ∃ k, fuel = k + 1 := ⟨fuel - 1, by omega⟩
    simp only [lqgqUpInner, ValCache.ret] at hpost
    rw [show ((c + 1 : Nat) : Int) - 1 = ((c : Nat) : Int) by
      push_cast; ring] at hpost
    have hv : ValCache.valid ⟨vals, ((c : Nat) : Int), mlen, s⟩ = true := by
      simp only [ValCache.valid, Bool.and_eq_true, decide_eq_true_eq]
      omega
    rw [hv] at hpost
    simp only [Bool.not_true, if_false] at hpost
    obtain ⟨hfr, hc2⟩ := ih (by omega) fuel' (by omega) (i + 1) _ post hpost
    refine ⟨?_, hc2⟩
    intro j hj
    rw [hfr j (by omega), updLayer_other _ _ _ _ (by omega)]

theorem lqgqSingle_top (vals : List Int) (xmin ymin : Int)
    (sx sy : Int → Bool) (cl cr : Nat) (n : Int) (layer : Int → bdd)
    (hm : vals.length = cr + 1) (hn : n = (cr : Int) + 1) (hclcr : cl ≤ cr)
    (hold : ∀ d : Nat, d ≤ cl →
      layer ((vals.length : Int) - cl - 1 + d) sx sy =
        geB vals xmin ymin d (cl - d) sx sy) :
    (lqgqSingle xmin ymin cl n layer
        ⟨vals, -1, (vals.length : Int), (vals.length : Int)⟩).1 (n - 1)
      sx sy = winLB vals xmin ymin cl cr (vals.length - 1) sx sy := by
  have hspec := lqgqSingleLoop_spec vals xmin ymin sx sy cl cr n hm hn hclcr
    vals.length 0 bdd_true bdd_true layer (by omega) (fun _ => rfl)
    (fun d _ hd2 _ => hold d hd2) (fun u hu => absurd hu (by omega))
  simp only [Nat.cast_zero, sub_zero] at hspec
  simp only [lqgqSingle, ValCache.last]
  rw [show n.toNat = vals.length by rw [hn]; omega]
  obtain ⟨hall, -⟩ := hspec _ rfl
  rw [show n - 1 = ((vals.length - 1 : Nat) : Int) by rw [hn]; omega]
  exact hall _ (by omega)

theorem lqgqGeneric_top (vals : List Int) (xmin ymin : Int)
    (sx sy : Int → Bool) (cl cr : Nat) (n : Int) (layer : Int → bdd)
    (hm : vals.length = cr + 1) (hn : n = (cr : Int) + 1) (hclcr : cl < cr)
    (hold : ∀ d : Nat, d ≤ cl →
      layer ((vals.length : Int) - cl - 1 + d) sx sy =
        geB vals xmin ymin d (cl - d) sx sy) :
    (lqgqGeneric xmin ymin cl n layer
        ⟨vals, -1, (vals.length : Int), (vals.length : Int)⟩).1 (n - 1)
      sx sy = winLB vals xmin ymin cl cr (vals.length - 1) sx sy := by
  have hlen : 2 ≤ vals.length := by omega
  have hspec := lqgqConnLoop_spec vals xmin ymin sx sy cl cr n hm hn
    (by omega) vals.length 0 bdd_true bdd_true layer (by omega)
    (fun _ => rfl) (fun d _ hd2 _ => hold d hd2)
    (fun u hu => absurd hu (by omega))
  simp only [Nat.cast_zero, sub_zero] at hspec
  simp only [lqgqGeneric, ValCache.last]
  rw [show n.toNat = vals.length by rw [hn]; omega]
  rcases hsc : lqgqConnLoop xmin ymin cl n vals.length 0 bdd_true bdd_true
      layer ⟨vals, (vals.length : Int) - 1, (vals.length : Int),
        (vals.length : Int)⟩ with ⟨layerC, interC⟩
  obtain ⟨hallC, hinterC⟩ := hspec (layerC, interC) hsc.symm
  dsimp only at hallC hinterC
  subst hinterC
  dsimp only
  simp only [ValCache.ret]
  rw [show (vals.length : Int) - 1 - 1 = ((vals.length - 2 : Nat) : Int)
    by omega]
  rw [show (((vals.length - 2 : Nat) : Int) + 1).toNat =
    (vals.length - 2) + 1 by omega]
  simp only [lqgqUpOuter]
  have hv : ValCache.valid ⟨vals, ((vals.length - 2 : Nat) : Int),
      (vals.length : Int), (vals.length : Int)⟩ = true := by
    simp only [ValCache.valid, Bool.and_eq_true, decide_eq_true_eq]
    omega
  rw [if_pos hv]
  rw [show n.toNat = vals.length by rw [hn]; omega]
  rcases hsu : lqgqUpInner xmin ymin vals.length 0 layerC
      ⟨vals, ((vals.length - 2 : Nat) : Int), (vals.length : Int),
        (vals.length : Int)⟩ with ⟨layerU, interU⟩
  obtain ⟨hfrU, hinterU⟩ := lqgqUpInner_run xmin ymin vals
    (vals.length : Int) (vals.length : Int) (vals.length - 2) (by omega)
    vals.length (by omega) 0 layerC (layerU, interU) hsu.symm
  dsimp only at hfrU hinterU
  subst hinterU
  dsimp only
  have hvf : ValCache.valid (⟨vals, -1, (vals.length : Int),
      (vals.length : Int)⟩ : ValCache) = false := by
    simp only [ValCache.valid, Bool.and_eq_false_iff,
      decide_eq_false_iff_not]
    left
    omega
  rw [hvf]
  simp only [Bool.not_false, if_true]
  rw [hfrU (n - 1) (by omega),
    show n - 1 = ((vals.length - 1 : Nat) : Int) by rw [hn]; omega]
  exact hallC _ (by omega)

/-- C7 fails as stated: with two intersection values (`isize = 2`, so
`r = 1`) and `cr = 2` equal to the intersection size exactly,
`extcardlqgq` satisfies `cr == r + 1` and takes the return-top-layer
branch, not the claimed single specialized single-pass construction;
the single pass is selected at `cr == r`, i.e. `cr == isize - 1`. -/
theorem lqgq_c7_counterexample :
    lqgqBranchSel 2 1 = LqgqBranch.seedTop ∧
    LqgqBranch.seedTop ≠ LqgqBranch.singlePass := by
  constructor
  · rfl
  · decide

/-- C7 (amended): in `extcardlqgq` with `cl < cr`, the single
specialized single-pass layer construction is selected exactly when
`cr` equals `r = isize - 1` (one free layer), not when `cr` equals the
intersection size; in that case the returned diagram accepts precisely
the assignments whose shared-value count lies in `[cl, cr]`, and it
agrees pointwise with what the generic two-phase connection-layer and
upper-region construction would produce on the same inputs. -/
theorem extcardlqgq_c7_amended (vals : List Int) (xmin ymin : Int)
    (sx sy : Int → Bool) (cl cr : Nat) (n r : Int)
    (hm : vals.length = cr + 1) (hn : n = (cr : Int) + 1)
    (hr : r = (cr : Int)) (hclcr : cl < cr) :
    lqgqBranchSel cr r = LqgqBranch.singlePass ∧
    (extcardlqgq xmin ymin (ValCache.init vals) cl cr n r).1 sx sy =
      decide (cl ≤ countBoth vals xmin ymin sx sy ∧
        countBoth vals xmin ymin sx sy ≤ cr) ∧
    (extcardlqgqForcedGeneric xmin ymin (ValCache.init vals) cl cr n r).1
        sx sy =
      decide (cl ≤ countBoth vals xmin ymin sx sy ∧
        countBoth vals xmin ymin sx sy ≤ cr) := by
  subst hn
  subst hr
  refine ⟨?_, ?_, ?_⟩
  · simp only [lqgqBranchSel]
    rw [if_neg (by omega : ¬((cr : Nat) : Int) = (cr : Int) + 1)]
    simp only [if_true]
  · rcases hab : lqgqAB xmin ymin (ValCache.init vals) cl cr
        ((cr : Int) + 1) (cr : Int) with ⟨layerA, interA⟩
    obtain ⟨holdA, hinterA⟩ := lqgqAB_spec vals xmin ymin sx sy cl cr
      ((cr : Int) + 1) (cr : Int) hm rfl rfl hclcr (layerA, interA) hab.symm
    dsimp only at holdA hinterA
    subst hinterA
    simp only [extcardlqgq]
    rw [hab]
    dsimp only
    rw [if_neg (by omega : ¬((cr : Nat) : Int) = (cr : Int) + 1)]
    simp only [if_true]
    rcases hsg : lqgqSingle xmin ymin cl ((cr : Int) + 1) layerA
        ⟨vals, -1, (vals.length : Int), (vals.length : Int)⟩
      with ⟨layerS, interS⟩
    have htop := lqgqSingle_top vals xmin ymin sx sy cl cr ((cr : Int) + 1)
      layerA hm rfl (by omega) (fun d hd => holdA d hd)
    rw [hsg] at htop
    dsimp only at htop
    dsimp only
    rw [htop]
    simp only [winLB, countBoth]
    rw [show vals.length - 1 - (vals.length - 1) = 0 by omega,
      decide_eq_decide]
    omega
  · rcases hab : lqgqAB xmin ymin (ValCache.init vals) cl cr
        ((cr : Int) + 1) (cr : Int) with ⟨layerA, interA⟩
    obtain ⟨holdA, hinterA⟩ := lqgqAB_spec vals xmin ymin sx sy cl cr
      ((cr : Int) + 1) (cr : Int) hm rfl rfl hclcr (layerA, interA) hab.symm
    dsimp only at holdA hinterA
    subst hinterA
    simp only [extcardlqgqForcedGeneric]
    rw [hab]
    dsimp only
    rcases hsg : lqgqGeneric xmin ymin cl ((cr : Int) + 1) layerA
        ⟨vals, -1, (vals.length : Int), (vals.length : Int)⟩
      with ⟨layerG, interG⟩
    have htop := lqgqGeneric_top vals xmin ymin sx sy cl cr ((cr : Int) + 1)
      layerA hm rfl hclcr (fun d hd => holdA d hd)
    rw [hsg] at htop
    dsimp only at htop
    dsimp only
    rw [htop]
    simp only [winLB, countBoth]
    rw [show vals.length - 1 - (vals.length - 1) = 0 by omega,
      decide_eq_decide]
    omega

/-- Witness for C7 amended at a concrete input: three cached values,
window `[1, 2]`, `cr = isize - 1 = 2`. -/
theorem extcardlqgq_c7_amended_witness :
    ([3, 5, 9] : List Int).length = 2 + 1 ∧
    (3 : Int) = ((2 : Nat) : Int) + 1 ∧
    (2 : Int) = ((2 : Nat) : Int) ∧
    1 < 2 ∧
    (lqgqBranchSel 2 2 = LqgqBranch.singlePass ∧
      (extcardlqgq 2 0 (ValCache.init [3, 5, 9]) 1 2 3 2).1
          (fun j => decide (j = 1)) (fun j => decide (j = 3)) =
        decide (1 ≤ countBoth [3, 5, 9] 2 0 (fun j => decide (j = 1))
            (fun j => decide (j = 3)) ∧
          countBoth [3, 5, 9] 2 0 (fun j => decide (j = 1))
            (fun j => decide (j = 3)) ≤ 2) ∧
      (extcardlqgqForcedGeneric 2 0 (ValCache.init [3, 5, 9]) 1 2 3 2).1
          (fun j => decide (j = 1)) (fun j => decide (j = 3)) =
        decide (1 ≤ countBoth [3, 5, 9] 2 0 (fun j => decide (j = 1))
            (fun j => decide (j = 3)) ∧
          countBoth [3, 5, 9] 2 0 (fun j => decide (j = 1))
            (fun j => decide (j = 3)) ≤ 2)) :=
  ⟨rfl, by decide, by decide, by decide,
    extcardlqgq_c7_amended [3, 5, 9] 2 0 (fun j => decide (j = 1))
      (fun j => decide (j = 3)) 1 2 3 2 rfl (by decide) (by decide)
      (by decide)⟩

end CpltSet
